import Mathlib

/-!
Verification of the TokenStream codec (Reader.cpp, Writer.cpp, Reader.h,
Writer.h, TokenStream.h) against its specification.  The C++ code is shallowly
embedded: byte streams are lists of naturals (each byte below 256), the
Reader and Writer objects become explicit state records, and every member
function becomes a pure state-passing function that mirrors the source line
by line.  Machine integers are modeled as naturals with explicit bounds or
explicit reductions modulo powers of two where the source relies on wrapping.
-/

/-- Sentinel value of Token::InvalidTokenValue in TokenStream.h. -/
def invalidToken : Nat := 0xffffffffffffffff

/-- Big-endian byte decomposition of a value, width n bytes.  This is the byte
layout that the uintN_be wrapper types of EndianTypes.h give to an n-byte
integer: most significant byte first. -/
def toBytesBE : Nat → Nat → List Nat
  | 0, _ => []
  | n + 1, v => toBytesBE n (v / 256) ++ [v % 256]

/-- Value of a big-endian byte string, as read back by memcpy into a
uintN_be followed by conversion to the native integer. -/
def fromBytesBE (l : List Nat) : Nat :=
  l.foldl (fun a b => a * 256 + b) 0

/-- Leading-zero trimming loop of Writer::WriteLengthEncoded and of
Writer::PutData (the branch without sign handling): while more than one
byte remains and the first byte is zero, drop it. -/
def trimLeadZeros : List Nat → List Nat
  | 0 :: b :: t => trimLeadZeros (b :: t)
  | l => l

/-- Leading 0xff trimming loop of Writer::PutData for negative signed
values: while more than one byte remains, the first byte is 0xff and the
second byte has its high bit set, drop the first byte. -/
def trimSignedFF : List Nat → List Nat
  | 0xff :: b :: t =>
    if b &&& 0x80 = 0x80 then trimSignedFF (b :: t) else 0xff :: b :: t
  | l => l

/-- Payload trimming of Writer::PutData when removeLeadingZeros is set.
With handleExtendedSign and a 0xff first byte the 0xff run is trimmed;
otherwise leading zeros are trimmed and, with handleExtendedSign, one zero
byte is put back when bytes were dropped and the new first byte has its
high bit set (the block != data test in the source). -/
def trimPayload (ext : Bool) (l : List Nat) : List Nat :=
  match l with
  | [] => []
  | b :: t =>
    if ext ∧ b = 0xff then trimSignedFF (b :: t)
    else
      let z := trimLeadZeros (b :: t)
      if ext ∧ z.length ≠ (b :: t).length ∧ z.headI &&& 0x80 = 0x80 then
        0 :: z
      else z

/-- Writer::WriteLengthEncoded: the unified variable-length encoding used
for tokens and lengths.  Below 0x80 one byte; below 0x7800 two bytes with
the high bit set (the uint16 value OR 0x8000, big-endian); otherwise the
eight big-endian bytes are trimmed of leading zeros and prefixed with
0xf7 plus the number of remaining bytes. -/
def writeLengthEncoded (v : Nat) : List Nat :=
  if v < 0x80 then [v]
  else if v < 0x7800 then
    let w := (v % 65536) ||| 0x8000
    [w / 256, w % 256]
  else
    let sig := trimLeadZeros (toBytesBE 8 v)
    (sig.length + 0xf7) :: sig

/-- Reinterpretation of an unsigned w-byte value as a signed two-complement
integer, the conversion performed when FetchPartial returns an intN_be as
the native signed type. -/
def toSigned (w : Nat) (u : Nat) : Int :=
  if 2 * u < 256 ^ w then (u : Int) else (u : Int) - (256 : Int) ^ w

/-- Value of the w-byte buffer built by Reader::FetchPartial with signExtend
set: the payload is placed right-aligned in a zero buffer and, when there is
fill space and the first payload byte has its high bit set, the fill bytes
are overwritten with 0xff.  This models the defined cases (payload length
between 1 and w, or an empty payload leaving the zero initialized buffer). -/
def signExtendBytes (w : Nat) (p : List Nat) : Nat :=
  if p.length < w ∧ p.headI &&& 0x80 = 0x80 then
    fromBytesBE p + (256 ^ w - 256 ^ p.length)
  else fromBytesBE p

/-- Signed decode of a payload for a w-byte destination, as performed by
FetchPartial with signExtend followed by returning the intN_be value. -/
def decodeS (w : Nat) (p : List Nat) : Int := toSigned w (signExtendBytes w p)

/-- Two-complement w-byte bit pattern of a signed integer value; this is the
value that the intN_be conversion inside PUTNUMBER stores before the bytes
are handed to PutData. -/
def tcNat (w : Nat) (v : Int) : Nat := (v % ((256 : Int) ^ w)).toNat

/-- Payload bytes emitted by Writer::Put for an unsigned w-byte integer:
PUTNUMBER hands the big-endian bytes to PutData with removeLeadingZeros set
and handleExtendedSign false. -/
def payloadU (w : Nat) (v : Nat) : List Nat := trimPayload false (toBytesBE w v)

/-- Payload bytes emitted by Writer::Put for a signed w-byte integer:
PUTNUMBER hands the big-endian two-complement bytes to PutData with
removeLeadingZeros set; handleExtendedSign is true for the 2, 4 and 8 byte
overloads and false for int8_t, which converts through uint8_t. -/
def payloadS (w : Nat) (v : Int) : List Nat :=
  trimPayload (decide (1 < w)) (toBytesBE w (tcNat w v))

/-- Context saved and restored by Reader::SubStream, from Reader.h. -/
structure SubStreamContext where
  containerToken : Nat := invalidToken
  containerElementCount : Nat := 0
  containerElementIndex : Nat := 0
  containerElementEnd : Nat := 0
  mEnd : Nat := 0
deriving DecidableEq

/-- State of a Reader.  The byte source is the list of bytes from the
construction position; offset mirrors m_offset, and the stream cursor of the
underlying istream coincides with offset on every path the model covers. -/
structure ReaderState where
  data : List Nat
  offset : Nat := 0
  remainingInElement : Nat := 0
  nextContainerElementCount : Nat := 0
  lastToken : Nat := invalidToken
  context : SubStreamContext := {}
  tokenPushed : Bool := false
  badStream : Bool := false
deriving DecidableEq

/-- Reader construction: the context end is the byte count of the source. -/
def initReader (data : List Nat) : ReaderState :=
  { data := data, context := { mEnd := data.length } }

/-- Reader::PastEOS. -/
def pastEOS (s : ReaderState) (n : Nat) : Bool :=
  decide (s.context.mEnd ≠ 0 ∧ s.offset + n > s.context.mEnd)

/-- Effect of the VERIFY_TOKENSTREAM and VERIFIED_READ failure paths: the
last token becomes the invalid sentinel and the bad-stream latch is set. -/
def vfail (s : ReaderState) : ReaderState :=
  { s with lastToken := invalidToken, badStream := true }

/-- Reader::EOS. -/
def readerEOS (s : ReaderState) : Bool :=
  s.badStream || (decide (s.context.mEnd ≤ s.offset) && !s.tokenPushed)

/-- Reader::PushLastToken. -/
def pushLastToken (s : ReaderState) : ReaderState := { s with tokenPushed := true }

/-- Reader::SkipBytes.  The push-back flag and the pending element length are
cleared first; with a latched bad stream or zero count nothing else happens;
otherwise the seekg path advances the offset, with the size_t wrap of the
addition made explicit. -/
def skipBytes (s : ReaderState) (bytes : Nat) : ReaderState :=
  let s1 := { s with tokenPushed := false, remainingInElement := 0 }
  if s1.badStream ∨ bytes = 0 then s1
  else { s1 with offset := (s1.offset + bytes) % 2 ^ 64 }

/-- Reader::Fetch: when a payload is pending, read that many bytes, advance
the offset and clear the pending count.  A short read latches the bad-stream
flag (VERIFIED_READ); the offset is advanced afterwards in either case, as in
the source. -/
def fetchBytes (s : ReaderState) : List Nat × ReaderState :=
  if s.remainingInElement = 0 then ([], s)
  else
    let n := s.remainingInElement
    let bytes := (s.data.drop s.offset).take n
    let s1 := if s.offset + n ≤ s.data.length then s else vfail s
    (bytes, { s1 with offset := s1.offset + n, remainingInElement := 0 })

/-- Reader::FetchPartial for an unsigned destination of w bytes. -/
def fetchPartialU (w : Nat) (s : ReaderState) : Nat × ReaderState :=
  if w < s.remainingInElement then (0, vfail s)
  else
    let r := fetchBytes s
    if r.2.badStream then (0, r.2) else (fromBytesBE r.1, r.2)

/-- Reader::FetchPartial for a signed destination of w bytes (signExtend). -/
def fetchPartialS (w : Nat) (s : ReaderState) : Int × ReaderState :=
  if w < s.remainingInElement then (0, vfail s)
  else
    let r := fetchBytes s
    if r.2.badStream then (0, r.2) else (decodeS w r.1, r.2)

/-- Reader::GetByte.  The destination is a stack byte that Fetch leaves
untouched when no payload is pending, so the returned value is then the
uninitialized byte, modeled by the junk argument. -/
def getByteR (junk : Nat) (s : ReaderState) : Nat × ReaderState :=
  if s.remainingInElement = 0 then (junk, s)
  else
    let r := fetchBytes s
    (r.1.headI, r.2)

/-- One invocation of Reader::ReadLengthEncoded, with the recursive calls of
the 0xf8 list-escape path abstracted as the rec2 parameter: bounds checks
and the first byte read, then dispatch on the byte value exactly as in the
source. -/
def readLEstep (rec2 : Bool → ReaderState → Nat × ReaderState)
    (forToken : Bool) (s : ReaderState) : Nat × ReaderState :=
  if pastEOS s 1 then (0, vfail s)
  else if s.badStream then (0, s)
  else if s.data.length ≤ s.offset then (0, vfail s)
  else
    let v := s.data.getD s.offset 0
    let s1 := { s with offset := s.offset + 1 }
    if v = 0xf8 then
      if forToken = false then (0, { s1 with badStream := true })
      else
        let r1 := rec2 false s1
        let s2 := { r1.2 with nextContainerElementCount := r1.1 }
        rec2 true s2
    else if v < 0x80 then (v, s1)
    else if v < 0xf8 then
      if pastEOS s1 1 then (0, vfail s1)
      else if s1.data.length ≤ s1.offset then (0, vfail s1)
      else
        let c := s1.data.getD s1.offset 0
        let s2 := { s1 with offset := s1.offset + 1 }
        ((((v &&& 0x7f) <<< 8) ||| c), s2)
    else
      let s2 := { s1 with remainingInElement := v - 0xf7 }
      if pastEOS s2 s2.remainingInElement then (0, vfail s2)
      else fetchPartialU 8 s2

/-- Reader::ReadLengthEncoded.  The fuel bounds the call depth: each level of
the 0xf8 list-escape recursion consumes at least one byte of the source, so
any fuel beyond the source length is sufficient, and exhausted fuel only
marks the stream bad.  Every path of a call with positive fuel other than
the list escape is independent of the fuel. -/
def readLE : Nat → Bool → ReaderState → Nat × ReaderState
  | 0, _, s => (0, { s with badStream := true })
  | fuel + 1, forToken, s => readLEstep (readLE fuel) forToken s

/-- Tail of Reader::GetToken after the token has been determined: check the
latch, decode the payload length, update the container element end marker
when requested, and verify the payload fits the context. -/
def getTokenTail (fuel : Nat) (s : ReaderState) (upd : Bool) : Nat × ReaderState :=
  if s.badStream then (invalidToken, { s with lastToken := invalidToken })
  else
    let r := readLE fuel false s
    let s1 := { r.2 with remainingInElement := r.1 }
    let s2 :=
      if upd then
        { s1 with context := { s1.context with
          containerElementEnd := s1.offset + s1.remainingInElement } }
      else s1
    if s2.badStream then (invalidToken, s2)
    else if pastEOS s2 s2.remainingInElement then (invalidToken, vfail s2)
    else (s2.lastToken, s2)

/-- Core of Reader::GetToken after push-back and pending-payload handling:
either synthesize the container token at an element boundary or decode a
token varint (possibly installing a new container scope). -/
def getTokenCore (fuel : Nat) (s : ReaderState) : Nat × ReaderState :=
  let s0 := { s with nextContainerElementCount := 0 }
  if s0.context.containerElementEnd ≠ 0 ∧ s0.context.containerElementEnd = s0.offset then
    if pastEOS s0 1 then (invalidToken, vfail s0)
    else
      let s1 := { s0 with lastToken := s0.context.containerToken }
      if s1.context.containerElementIndex + 1 = s1.context.containerElementCount then
        let s2 := { s1 with context := { s1.context with
          containerElementCount := 0, containerElementIndex := 0,
          containerElementEnd := 0, containerToken := invalidToken } }
        getTokenTail fuel s2 false
      else
        let s2 := { s1 with context := { s1.context with
          containerElementIndex := s1.context.containerElementIndex + 1 } }
        getTokenTail fuel s2 true
  else
    if pastEOS s0 2 then (invalidToken, vfail s0)
    else
      let r := readLE fuel true s0
      let s1 : ReaderState := { r.2 with lastToken := r.1 }
      if s1.nextContainerElementCount > 1 then
        let s2 := { s1 with context := { s1.context with
          containerToken := s1.lastToken,
          containerElementCount := s1.nextContainerElementCount,
          containerElementIndex := 1 } }
        getTokenTail fuel s2 true
      else getTokenTail fuel s1 false

/-- Reader::GetToken. -/
def getToken (fuel : Nat) (s : ReaderState) : Nat × ReaderState :=
  if s.badStream then (invalidToken, s)
  else if s.tokenPushed then (s.lastToken, { s with tokenPushed := false })
  else if s.remainingInElement ≠ 0 then
    let s1 := skipBytes s s.remainingInElement
    if readerEOS s1 then (invalidToken, s1) else getTokenCore fuel s1
  else getTokenCore fuel s

/-- Subtraction of size_t values as computed by the destructor of
Reader::SubStream, with the wraparound made explicit. -/
def subSizeT (a b : Nat) : Nat := (a % 2 ^ 64 + 2 ^ 64 - b % 2 ^ 64) % 2 ^ 64

/-- Constructor of Reader::SubStream: saves the current context, installs a
fresh context ending at offset plus the pending payload length, and clears
the pending length.  Returns the new state and the saved context. -/
def subStreamOpen (s : ReaderState) : ReaderState × SubStreamContext :=
  ({ s with context := { mEnd := s.offset + s.remainingInElement },
            remainingInElement := 0 },
   s.context)

/-- Destructor of Reader::SubStream: skip to the declared end of the current
context and restore the saved context. -/
def subStreamClose (s : ReaderState) (old : SubStreamContext) : ReaderState :=
  let s1 := skipBytes s (subSizeT s.context.mEnd s.offset)
  { s1 with context := old }

/-- Loop of Reader::GetContainer for a sequence container: emplace a default
element, deserialize into it, then stop on EOS or on a token that differs
from the container token (which is pushed back).  The element decoder is a
parameter; lefuel feeds GetToken and fuel bounds the number of additional
loop iterations beyond the first. -/
def getContainerLoop {V : Type} (dec : ReaderState → V × ReaderState)
    (containerToken : Nat) (lefuel : Nat) :
    Nat → ReaderState → List V → List V × ReaderState
  | fuel, s, acc =>
    let r := dec s
    let acc1 := acc ++ [r.1]
    if readerEOS r.2 then (acc1, r.2)
    else
      let g := getToken lefuel r.2
      if g.1 = containerToken then
        match fuel with
        | 0 => (acc1, g.2)
        | fuel + 1 => getContainerLoop dec containerToken lefuel fuel g.2 acc1
      else (acc1, pushLastToken g.2)

/-- Reader::GetContainer (emplace_back form): the container token is the most
recently returned token, and elements are appended starting from the given
container contents. -/
def getContainer {V : Type} (dec : ReaderState → V × ReaderState)
    (lefuel fuel : Nat) (s : ReaderState) (dest : List V) : List V × ReaderState :=
  getContainerLoop dec s.lastToken lefuel fuel s dest

/-- State of a Writer.  The output sink is modeled as the list of bytes
written so far (the MemoryWriter case); tellp is its length. -/
structure WriterState where
  out : List Nat := []
  nextToken : Nat := invalidToken
  trimDefaults : Bool := true
  badStream : Bool := false
  containerToken : Nat := invalidToken
  containerElementCount : Nat := 0
  containerElementIndex : Nat := 0
deriving DecidableEq

/-- Writer::WriteLengthEncoded as a state transformer: a latched bad stream
writes nothing, otherwise the encoded bytes are appended. -/
def writeLengthEncodedW (s : WriterState) (v : Nat) : WriterState :=
  if s.badStream then s else { s with out := s.out ++ writeLengthEncoded v }

/-- Writer::PutDataHeader. -/
def putDataHeader (s : WriterState) (token len : Nat) : WriterState :=
  let s0 := { s with nextToken := invalidToken }
  if len ≠ 0 ∨ s0.trimDefaults = false then
    if s0.containerToken ≠ invalidToken then
      if token ≠ s0.containerToken then { s0 with badStream := true }
      else
        let s1 := if s0.containerElementIndex = 0 then writeLengthEncodedW s0 token else s0
        let s2 :=
          if s1.containerElementIndex + 1 = s1.containerElementCount then
            { s1 with containerElementIndex := s1.containerElementIndex + 1,
                      containerToken := invalidToken }
          else { s1 with containerElementIndex := s1.containerElementIndex + 1 }
        writeLengthEncodedW s2 len
    else if token = invalidToken ∧ s0.out ≠ [] then { s0 with badStream := true }
    else
      let s1 := if token ≠ invalidToken then writeLengthEncodedW s0 token else s0
      writeLengthEncodedW s1 len
  else s0

/-- Writer::PutData: trim the payload when requested, write the header, then
write the remaining payload bytes. -/
def putData (s : WriterState) (token : Nat) (payload : List Nat)
    (removeLeadingZeros handleExtendedSign : Bool) : WriterState :=
  if s.badStream then s
  else
    let block :=
      if payload ≠ [] ∧ removeLeadingZeros then trimPayload handleExtendedSign payload
      else payload
    let s1 := putDataHeader s token block.length
    if block ≠ [] then { s1 with out := s1.out ++ block } else s1

/-- The PUTNUMBER macro behind every scalar Writer::Put overload: when trim
defaults is on and the value equals its declared default, only the pending
token is cleared; otherwise the converted bytes go to PutData with
removeLeadingZeros set.  The conversion to payload bytes is a parameter so
that one definition covers all the scalar overloads. -/
def putNumber {V : Type} [DecidableEq V] (payloadBytes : V → List Nat)
    (handleExtendedSign : Bool) (s : WriterState) (token : Nat)
    (value defaultValue : V) : WriterState :=
  if s.trimDefaults = false ∨ value ≠ defaultValue then
    putData s token (payloadBytes value) true handleExtendedSign
  else { s with nextToken := invalidToken }

/-- Writer::PutContainerElementCount. -/
def putContainerElementCount (s : WriterState) (token size : Nat) : WriterState :=
  if s.badStream ∨ size < 2 then s
  else
    let s1 := { s with containerToken := token, containerElementCount := size,
                       containerElementIndex := 0 }
    let s2 := { s1 with out := s1.out ++ [0xf8] }
    writeLengthEncodedW s2 size

theorem toBytesBE_length (n v : Nat) : (toBytesBE n v).length = n := by
  induction n generalizing v with
  | zero => rfl
  | succ n ih => simp [toBytesBE, ih]

theorem toBytesBE_mem_lt (n v b : Nat) (hb : b ∈ toBytesBE n v) : b < 256 := by
  induction n generalizing v with
  | zero => simp [toBytesBE] at hb
  | succ n ih =>
    simp only [toBytesBE, List.mem_append, List.mem_singleton] at hb
    rcases hb with h | h
    · exact ih _ h
    · omega

theorem fromBytesBE_acc (a : Nat) (l : List Nat) :
    l.foldl (fun a b => a * 256 + b) a = a * 256 ^ l.length + fromBytesBE l := by
  induction l generalizing a with
  | nil => simp [fromBytesBE]
  | cons b t ih =>
    simp only [fromBytesBE, List.foldl_cons, List.length_cons] at *
    rw [ih (a * 256 + b), ih (0 * 256 + b)]
    ring

theorem fromBytesBE_nil : fromBytesBE [] = 0 := rfl

theorem fromBytesBE_cons (b : Nat) (t : List Nat) :
    fromBytesBE (b :: t) = b * 256 ^ t.length + fromBytesBE t := by
  simp only [fromBytesBE, List.foldl_cons]
  simpa using fromBytesBE_acc b t

theorem fromBytesBE_append (l₁ l₂ : List Nat) :
    fromBytesBE (l₁ ++ l₂) = fromBytesBE l₁ * 256 ^ l₂.length + fromBytesBE l₂ := by
  simp only [fromBytesBE, List.foldl_append]
  exact fromBytesBE_acc _ l₂

theorem fromBytesBE_lt (l : List Nat) (h : ∀ b ∈ l, b < 256) :
    fromBytesBE l < 256 ^ l.length := by
  induction l with
  | nil => simp [fromBytesBE]
  | cons b t ih =>
    rw [fromBytesBE_cons]
    have hb : b < 256 := h b (by simp)
    have ht : fromBytesBE t < 256 ^ t.length := ih fun x hx => h x (by simp [hx])
    have : b * 256 ^ t.length + fromBytesBE t < (b + 1) * 256 ^ t.length := by
      nlinarith [pow_pos (show 0 < 256 by norm_num) t.length]
    calc b * 256 ^ t.length + fromBytesBE t < (b + 1) * 256 ^ t.length := this
    _ ≤ 256 * 256 ^ t.length := by
        have : b + 1 ≤ 256 := by omega
        exact Nat.mul_le_mul_right _ this
    _ = 256 ^ (t.length + 1) := by ring
    _ = 256 ^ (b :: t).length := by simp

theorem fromBytesBE_toBytesBE (n v : Nat) :
    fromBytesBE (toBytesBE n v) = v % 256 ^ n := by
  induction n generalizing v with
  | zero => simp [toBytesBE, fromBytesBE, Nat.mod_one]
  | succ n ih =>
    rw [toBytesBE, fromBytesBE_append, ih]
    have h1 : fromBytesBE [v % 256] = v % 256 := by simp [fromBytesBE]
    have h2 : ([v % 256] : List Nat).length = 1 := rfl
    rw [h1, h2, pow_one]
    have h3 : (256 : Nat) ^ (n + 1) = 256 * 256 ^ n := by ring
    rw [h3, Nat.mod_mul]
    ring

theorem trimLeadZeros_nil : trimLeadZeros [] = [] := rfl

theorem trimLeadZeros_singleton (a : Nat) : trimLeadZeros [a] = [a] := by
  cases a with
  | zero => rfl
  | succ a => rfl

theorem trimLeadZeros_zero_cons (b : Nat) (t : List Nat) :
    trimLeadZeros (0 :: b :: t) = trimLeadZeros (b :: t) := rfl

theorem trimLeadZeros_pos_cons (a b : Nat) (t : List Nat) (h : a ≠ 0) :
    trimLeadZeros (a :: b :: t) = a :: b :: t := by
  cases a with
  | zero => exact absurd rfl h
  | succ a => rfl

theorem trimLeadZeros_from (l : List Nat) :
    fromBytesBE (trimLeadZeros l) = fromBytesBE l := by
  induction l with
  | nil => rfl
  | cons a t ih =>
    cases t with
    | nil => rw [trimLeadZeros_singleton]
    | cons b u =>
      cases a with
      | zero =>
        rw [trimLeadZeros_zero_cons]
        rw [show fromBytesBE (0 :: b :: u) = fromBytesBE (b :: u) by
          rw [fromBytesBE_cons]; ring]
        exact ih
      | succ a => rw [trimLeadZeros_pos_cons _ _ _ (by omega)]

theorem trimLeadZeros_length_le (l : List Nat) :
    (trimLeadZeros l).length ≤ l.length := by
  induction l with
  | nil => simp [trimLeadZeros_nil]
  | cons a t ih =>
    cases t with
    | nil => simp [trimLeadZeros_singleton]
    | cons b u =>
      cases a with
      | zero =>
        rw [trimLeadZeros_zero_cons]
        calc (trimLeadZeros (b :: u)).length ≤ (b :: u).length := ih
        _ ≤ (0 :: b :: u).length := by simp
      | succ a => rw [trimLeadZeros_pos_cons _ _ _ (by omega)]

theorem trimLeadZeros_ne_nil (l : List Nat) (h : l ≠ []) :
    trimLeadZeros l ≠ [] := by
  induction l with
  | nil => exact absurd rfl h
  | cons a t ih =>
    cases t with
    | nil => simp [trimLeadZeros_singleton]
    | cons b u =>
      cases a with
      | zero => rw [trimLeadZeros_zero_cons]; exact ih (by simp)
      | succ a => rw [trimLeadZeros_pos_cons _ _ _ (by omega)]; simp

theorem trimLeadZeros_mem (l : List Nat) (b : Nat) (h : b ∈ trimLeadZeros l) :
    b ∈ l := by
  induction l with
  | nil => simp [trimLeadZeros_nil] at h
  | cons a t ih =>
    cases t with
    | nil => simpa [trimLeadZeros_singleton] using h
    | cons c u =>
      cases a with
      | zero =>
        rw [trimLeadZeros_zero_cons] at h
        have := ih h
        simp [this]
      | succ a => rwa [trimLeadZeros_pos_cons _ _ _ (by omega)] at h

theorem trimLeadZeros_head_cases (l : List Nat) (h : l ≠ []) :
    trimLeadZeros l = [0] ∨ (trimLeadZeros l).headI ≠ 0 := by
  induction l with
  | nil => exact absurd rfl h
  | cons a t ih =>
    cases t with
    | nil =>
      rw [trimLeadZeros_singleton]
      cases a with
      | zero => left; rfl
      | succ a => right; simp
    | cons b u =>
      cases a with
      | zero => rw [trimLeadZeros_zero_cons]; exact ih (by simp)
      | succ a => rw [trimLeadZeros_pos_cons _ _ _ (by omega)]; right; simp

theorem trimSignedFF_nil : trimSignedFF [] = [] := rfl

theorem trimSignedFF_singleton (a : Nat) : trimSignedFF [a] = [a] := by
  rw [trimSignedFF.eq_def]
  split
  · next heq => exact absurd heq (by simp)
  · rfl

theorem trimSignedFF_ff_cons (b : Nat) (t : List Nat) :
    trimSignedFF (0xff :: b :: t) =
      if b &&& 0x80 = 0x80 then trimSignedFF (b :: t) else 0xff :: b :: t := rfl

theorem trimSignedFF_other_cons (a b : Nat) (t : List Nat) (h : a ≠ 0xff) :
    trimSignedFF (a :: b :: t) = a :: b :: t := by
  rw [trimSignedFF.eq_def]
  split
  · next heq => rename_i b1 t1; injection heq with h1 h2; exact absurd h1 h
  · rfl

theorem readLE_badStream (fuel : Nat) (b : Bool) (s : ReaderState)
    (h : s.badStream = true) : (readLE fuel b s).2.badStream = true := by
  cases fuel with
  | zero => simp [readLE]
  | succ fuel =>
    rw [readLE, readLEstep]
    by_cases hp : pastEOS s 1 = true
    · rw [if_pos hp]; rfl
    · rw [if_neg hp, if_pos h]; exact h

theorem fetchBytes_badStream (s : ReaderState) (h : s.badStream = true) :
    (fetchBytes s).2.badStream = true := by
  unfold fetchBytes
  split
  · simpa
  · dsimp only
    split <;> simp [vfail, h]

theorem fetchPartialU_badStream (w : Nat) (s : ReaderState)
    (h : s.badStream = true) : (fetchPartialU w s).2.badStream = true := by
  unfold fetchPartialU
  have hb := fetchBytes_badStream s h
  split
  · simp [vfail]
  · dsimp only
    split
    · assumption
    · simp_all

/-- C4: once the bad-stream latch is set it stays set across the modeled
Reader and Writer operations, and from that point both engines are inert:
Reader::EOS reports true, Reader::GetToken returns the invalid-token
sentinel without touching any state, skips and length decodes keep the
latch, and the Writer operations append no bytes to the output. -/
theorem c4_bad_stream_latch (s : ReaderState) (w : WriterState)
    (hs : s.badStream = true) (hw : w.badStream = true) :
    readerEOS s = true ∧
    (∀ fuel, getToken fuel s = (invalidToken, s)) ∧
    (∀ n, (skipBytes s n).badStream = true) ∧
    (∀ fuel b, (readLE fuel b s).2.badStream = true) ∧
    (∀ n, (fetchPartialU n s).2.badStream = true) ∧
    (∀ t p rz ext, putData w t p rz ext = w) ∧
    (∀ (V : Type) [DecidableEq V] (f : V → List Nat) (ext : Bool)
       (t : Nat) (v d : V),
       (putNumber f ext w t v d).out = w.out ∧
       (putNumber f ext w t v d).badStream = true) ∧
    (∀ t n, putContainerElementCount w t n = w) ∧
    (∀ v, writeLengthEncodedW w v = w) := by
  refine ⟨?_, ?_, ?_, ?_, ?_, ?_, ?_, ?_, ?_⟩
  · simp [readerEOS, hs]
  · intro fuel; unfold getToken; rw [if_pos hs]
  · intro n; simp [skipBytes, hs]
  · intro fuel b; exact readLE_badStream fuel b s hs
  · intro n; exact fetchPartialU_badStream n s hs
  · intro t p rz ext; simp [putData, hw]
  · intro V inst f ext t v d
    unfold putNumber
    split
    · simp [putData, hw]
    · simp [hw]
  · intro t n; simp [putContainerElementCount, hw]
  · intro v; simp [writeLengthEncodedW, hw]

/-- Witness for C4 at a concrete latched reader and writer state. -/
theorem c4_bad_stream_latch_witness :
    ({ initReader [1, 2] with badStream := true } : ReaderState).badStream = true ∧
    ({ badStream := true } : WriterState).badStream = true ∧
    readerEOS { initReader [1, 2] with badStream := true } = true :=
  ⟨by decide, by decide,
   (c4_bad_stream_latch { initReader [1, 2] with badStream := true }
     { badStream := true } (by decide) (by decide)).1⟩

/-- C7: with trim defaults on, any scalar Put whose value equals its declared
default only clears the pending token; the output bytes are untouched.  The
statement covers every PUTNUMBER instantiation at once through the payload
conversion parameter. -/
theorem c7_trim_default_put (V : Type) [DecidableEq V]
    (payloadBytes : V → List Nat) (ext : Bool) (s : WriterState) (t : Nat)
    (v : V) (h : s.trimDefaults = true) :
    putNumber payloadBytes ext s t v v = { s with nextToken := invalidToken } := by
  simp [putNumber, h]

/-- Witness for C7 at a concrete writer, token and value. -/
theorem c7_trim_default_put_witness :
    ({} : WriterState).trimDefaults = true ∧
    putNumber (fun n : Nat => toBytesBE 4 n) false {} 3 300 300 =
      { ({} : WriterState) with nextToken := invalidToken } :=
  ⟨by decide,
   c7_trim_default_put Nat (fun n => toBytesBE 4 n) false {} 3 300 (by decide)⟩

theorem getContainerLoop_grows (V : Type) (dec : ReaderState → V × ReaderState)
    (ct lefuel : Nat) :
    ∀ (fuel : Nat) (s : ReaderState) (acc : List V),
      acc.length + 1 ≤ (getContainerLoop dec ct lefuel fuel s acc).1.length := by
  intro fuel
  induction fuel with
  | zero =>
    intro s acc
    rw [getContainerLoop]
    by_cases h1 : readerEOS (dec s).2 = true
    · rw [if_pos h1]; simp
    · rw [if_neg h1]
      dsimp only
      by_cases h2 : (getToken lefuel (dec s).2).1 = ct
      · rw [if_pos h2]; simp
      · rw [if_neg h2]; simp
  | succ fuel ih =>
    intro s acc
    rw [getContainerLoop]
    by_cases h1 : readerEOS (dec s).2 = true
    · rw [if_pos h1]; simp
    · rw [if_neg h1]
      dsimp only
      by_cases h2 : (getToken lefuel (dec s).2).1 = ct
      · rw [if_pos h2]
        calc acc.length + 1 ≤ (acc ++ [(dec s).1]).length := by simp
        _ ≤ _ := Nat.le_of_succ_le (ih _ _)
      · rw [if_neg h2]; simp

/-- C10: every call to Reader::GetContainer appends at least one element to
the destination: the element is emplaced and deserialized before any
end-of-stream or container-token check, so the container grows even when the
payload is empty or the stream is already exhausted. -/
theorem c10_getcontainer_appends (V : Type) (dec : ReaderState → V × ReaderState)
    (lefuel fuel : Nat) (s : ReaderState) (dest : List V) :
    dest.length + 1 ≤ (getContainer dec lefuel fuel s dest).1.length :=
  getContainerLoop_grows V dec s.lastToken lefuel fuel s dest

/-- C9 counterexample: on the stream [0x05, 0xf8] the first GetToken stores
last token 5 but latches the bad stream while decoding the length (0xf8 is
not legal there).  After PushLastToken, the next GetToken returns the
invalid sentinel, which differs from the stored last token, and leaves the
push-back flag set instead of clearing it. -/
theorem c9_counterexample :
    ((getToken 2 (initReader [5, 0xf8])).2.lastToken = 5 ∧
      (getToken 2 (initReader [5, 0xf8])).2.badStream = true) ∧
    getToken 2 (pushLastToken (getToken 2 (initReader [5, 0xf8])).2) =
      (invalidToken, pushLastToken (getToken 2 (initReader [5, 0xf8])).2) ∧
    invalidToken ≠ 5 ∧
    (getToken 2 (pushLastToken (getToken 2 (initReader [5, 0xf8])).2)).2.tokenPushed =
      true := by decide

/-- C9 amended: provided the bad-stream latch is not set, a GetToken that
follows PushLastToken returns the stored last token, clears the push-back
flag and changes nothing else; with the latch set, GetToken returns the
invalid sentinel and leaves the flag alone. -/
theorem c9_push_then_get (s : ReaderState) (fuel : Nat)
    (h : s.badStream = false) :
    getToken fuel (pushLastToken s) = (s.lastToken, { s with tokenPushed := false }) := by
  simp [getToken, pushLastToken, h]

/-- Witness for C9 at a concrete reader state. -/
theorem c9_push_then_get_witness :
    ({ initReader [1] with lastToken := 5 } : ReaderState).badStream = false ∧
    getToken 1 (pushLastToken { initReader [1] with lastToken := 5 }) =
      (5, { ({ initReader [1] with lastToken := 5 } : ReaderState) with
            tokenPushed := false }) :=
  ⟨by decide,
   c9_push_then_get { initReader [1] with lastToken := 5 } 1 (by decide)⟩

/-- C2 counterexample: on a stream that starts with 0xf8 where a length is
being decoded (forToken false), ReadLengthEncoded latches the bad stream
and returns 0 instead of performing the list escape; in particular the
element count field stays untouched. -/
theorem c2_counterexample :
    (readLE 3 false (initReader [0xf8, 2, 5])).2.badStream = true ∧
    (readLE 3 false (initReader [0xf8, 2, 5])).1 = 0 ∧
    (readLE 3 false (initReader [0xf8, 2, 5])).2.nextContainerElementCount = 0 := by
  decide

/-- C2 amended: a list prefix is accepted wherever a token is legal, not
wherever a length is legal.  When the next byte is 0xf8: decoding a length
latches the bad stream and returns 0, while decoding a token performs the
list escape, reading a varint element count into the reader state and then
another varint that becomes the result token. -/
theorem c2_list_prefix_dispatch (s : ReaderState) (fuel : Nat)
    (hbad : s.badStream = false) (hp : pastEOS s 1 = false)
    (hlen : s.offset < s.data.length) (hbyte : s.data.getD s.offset 0 = 0xf8) :
    readLE (fuel + 1) false s =
      (0, { s with offset := s.offset + 1, badStream := true }) ∧
    readLE (fuel + 1) true s =
      (let s1 : ReaderState := { s with offset := s.offset + 1 }
       let r1 := readLE fuel false s1
       readLE fuel true { r1.2 with nextContainerElementCount := r1.1 }) := by
  constructor
  · rw [readLE, readLEstep, if_neg (by simp [hp]), if_neg (by simp [hbad])]
    rw [if_neg (by omega)]
    simp only [hbyte, if_true]
  · rw [readLE, readLEstep, if_neg (by simp [hp]), if_neg (by simp [hbad])]
    rw [if_neg (by omega)]
    simp only [hbyte, if_true, Bool.true_eq_false, if_false]

/-- Witness for C2 at a concrete reader whose next byte is 0xf8. -/
theorem c2_list_prefix_dispatch_witness :
    ((initReader [0xf8, 2, 5]).badStream = false ∧
      pastEOS (initReader [0xf8, 2, 5]) 1 = false ∧
      (initReader [0xf8, 2, 5]).offset < (initReader [0xf8, 2, 5]).data.length ∧
      (initReader [0xf8, 2, 5]).data.getD (initReader [0xf8, 2, 5]).offset 0 = 0xf8) ∧
    readLE 3 false (initReader [0xf8, 2, 5]) =
      (0, { initReader [0xf8, 2, 5] with offset := 1, badStream := true }) :=
  ⟨⟨by decide, by decide, by decide, by decide⟩,
   (c2_list_prefix_dispatch (initReader [0xf8, 2, 5]) 2 (by decide) (by decide)
     (by decide) (by decide)).1⟩

/-- C3 counterexample: on the stream [0x00, 0x03, 0x01, 0x02, 0x03] the outer
GetToken leaves offset 2 with 3 payload bytes pending, so an opened
sub-stream declares end 5.  The inner GetToken latches the bad stream (its
2-byte element would overrun the declared end), and destroying the scope
then leaves the offset at 4, not at the declared end 5: the saved context is
restored but the offset is not advanced on the bad-stream exit path. -/
theorem c3_counterexample :
    ((getToken 9 (initReader [0, 3, 1, 2, 3])).2.offset = 2 ∧
      (getToken 9 (initReader [0, 3, 1, 2, 3])).2.remainingInElement = 3) ∧
    (subStreamOpen (getToken 9 (initReader [0, 3, 1, 2, 3])).2).1.context.mEnd = 5 ∧
    (subStreamClose
        (getToken 9 (subStreamOpen (getToken 9 (initReader [0, 3, 1, 2, 3])).2).1).2
        (subStreamOpen (getToken 9 (initReader [0, 3, 1, 2, 3])).2).2).context =
      (subStreamOpen (getToken 9 (initReader [0, 3, 1, 2, 3])).2).2 ∧
    (subStreamClose
        (getToken 9 (subStreamOpen (getToken 9 (initReader [0, 3, 1, 2, 3])).2).1).2
        (subStreamOpen (getToken 9 (initReader [0, 3, 1, 2, 3])).2).2).offset = 4 := by
  decide

/-- C3 amended: destroying a SubStream scope always restores the saved
context; the offset is advanced to the declared end of the sub-stream
exactly when the bad-stream latch is not set at that moment (regardless of
whether the inner decoder consumed fewer or more bytes), while with the
latch set the offset is left where it was.  Opening a scope saves the
current context and declares the end as offset plus the pending payload
length. -/
theorem c3_substream_scope (s : ReaderState) (old : SubStreamContext)
    (hoff : s.offset < 2 ^ 64) (hend : s.context.mEnd < 2 ^ 64) :
    (subStreamOpen s).2 = s.context ∧
    (subStreamOpen s).1.context.mEnd = s.offset + s.remainingInElement ∧
    (subStreamOpen s).1.remainingInElement = 0 ∧
    (subStreamClose s old).context = old ∧
    (s.badStream = false → (subStreamClose s old).offset = s.context.mEnd) ∧
    (s.badStream = true → (subStreamClose s old).offset = s.offset) := by
  refine ⟨rfl, rfl, rfl, rfl, ?_, ?_⟩
  · intro hb
    unfold subStreamClose skipBytes subSizeT
    rw [Nat.mod_eq_of_lt hoff, Nat.mod_eq_of_lt hend]
    dsimp only
    rw [hb]
    by_cases h0 : s.context.mEnd + 2 ^ 64 - s.offset = 2 ^ 64
    · have : (s.context.mEnd + 2 ^ 64 - s.offset) % 2 ^ 64 = 0 := by omega
      rw [this]
      simp only [or_true, if_true]
      omega
    · have hlt : s.context.mEnd + 2 ^ 64 - s.offset < 2 * 2 ^ 64 := by omega
      have hmod : (s.context.mEnd + 2 ^ 64 - s.offset) % 2 ^ 64 =
          s.context.mEnd + 2 ^ 64 - s.offset - (if s.offset ≤ s.context.mEnd then 2 ^ 64 else 0) := by
        split <;> omega
      rw [hmod]
      have hne : ¬(s.context.mEnd + 2 ^ 64 - s.offset -
          (if s.offset ≤ s.context.mEnd then 2 ^ 64 else 0) = 0) := by
        split <;> omega
      simp only [Bool.false_eq_true, false_or, hne, if_false]
      split <;> omega
  · intro hb
    unfold subStreamClose skipBytes
    rw [hb]
    simp

/-- Witness for C3 at a concrete state with the latch clear and one with the
latch set. -/
theorem c3_substream_scope_witness :
    (({ initReader [9, 9, 9] with offset := 1 } : ReaderState).offset < 2 ^ 64 ∧
      ({ initReader [9, 9, 9] with offset := 1 } : ReaderState).context.mEnd < 2 ^ 64) ∧
    (({ initReader [9, 9, 9] with offset := 1 } : ReaderState).badStream = false →
      (subStreamClose { initReader [9, 9, 9] with offset := 1 } {}).offset =
        ({ initReader [9, 9, 9] with offset := 1 } : ReaderState).context.mEnd) :=
  ⟨⟨by decide, by decide⟩,
   (c3_substream_scope { initReader [9, 9, 9] with offset := 1 } {} (by decide)
     (by decide)).2.2.2.2.1⟩

/-- C6: on a zero-length payload the one-byte getters do not yield 0: Fetch
returns without writing when no payload bytes are pending, so GetByte
returns its uninitialized stack byte (modeled by the junk argument, here 7).
The stream [0x05, 0x00] is token 5 with a zero-length chunk. -/
theorem c6_zero_length_getbyte :
    (getToken 2 (initReader [5, 0])).2.remainingInElement = 0 ∧
    getByteR 7 (getToken 2 (initReader [5, 0])).2 =
      (7, (getToken 2 (initReader [5, 0])).2) ∧
    (7 : Nat) ≠ 0 := by decide

theorem lor_0x8000 (v : Nat) (h : v < 0x8000) : v ||| 0x8000 = v + 0x8000 := by
  have h1 := Nat.mul_add_lt_is_or (show v < 2 ^ 15 by omega) 1
  have h2 : (2 : Nat) ^ 15 * 1 = 0x8000 := by norm_num
  rw [h2] at h1
  rw [Nat.lor_comm, ← h1]
  omega

theorem and_0x7f (a : Nat) (ha : a < 128) : (a + 128) &&& 0x7f = a := by
  have h1 : (0x7f : Nat) = 2 ^ 7 - 1 := by norm_num
  rw [h1, Nat.and_pow_two_sub_one_eq_mod]
  omega

theorem shl8_lor (a c : Nat) (hc : c < 256) : (a <<< 8) ||| c = a * 256 + c := by
  have h1 : a <<< 8 = a * 256 := by rw [Nat.shiftLeft_eq]
  have h2 := Nat.mul_add_lt_is_or (show c < 2 ^ 8 by omega) a
  have h3 : (2 : Nat) ^ 8 * a = a * 256 := by ring
  rw [h3] at h2
  rw [h1, ← h2]

theorem sig_facts (v : Nat) (hv : v < 2 ^ 64) (hge : 256 ≤ v) :
    2 ≤ (trimLeadZeros (toBytesBE 8 v)).length ∧
    (trimLeadZeros (toBytesBE 8 v)).length ≤ 8 ∧
    fromBytesBE (trimLeadZeros (toBytesBE 8 v)) = v := by
  have h8 : (toBytesBE 8 v).length = 8 := toBytesBE_length 8 v
  have hne : toBytesBE 8 v ≠ [] := by
    intro h; rw [h] at h8; simp at h8
  have hfrom : fromBytesBE (trimLeadZeros (toBytesBE 8 v)) = v := by
    rw [trimLeadZeros_from, fromBytesBE_toBytesBE]
    have : (256 : Nat) ^ 8 = 2 ^ 64 := by norm_num
    rw [this, Nat.mod_eq_of_lt hv]
  refine ⟨?_, le_trans (trimLeadZeros_length_le _) (by rw [h8]), hfrom⟩
  by_contra hcon
  push_neg at hcon
  have h1 : (trimLeadZeros (toBytesBE 8 v)).length = 1 := by
    have := trimLeadZeros_ne_nil _ hne
    have := List.length_pos.mpr this
    omega
  obtain ⟨b, hb⟩ := List.length_eq_one.mp h1
  have hbmem : b ∈ toBytesBE 8 v := trimLeadZeros_mem _ b (by rw [hb]; simp)
  have hblt : b < 256 := toBytesBE_mem_lt 8 v b hbmem
  rw [hb] at hfrom
  rw [fromBytesBE_cons] at hfrom
  simp [fromBytesBE_nil] at hfrom
  omega

theorem writeLE_two_byte_shape (v : Nat) (h1 : 0x80 ≤ v) (h2 : v < 0x7800) :
    writeLengthEncoded v = [v / 256 + 128, v % 256] := by
  unfold writeLengthEncoded
  rw [if_neg (by omega), if_pos h2]
  have hm : v % 65536 = v := Nat.mod_eq_of_lt (by omega)
  dsimp only
  rw [hm, lor_0x8000 v (by omega)]
  congr 1
  · omega
  · congr 1
    omega

theorem writeLE_multi_shape (v : Nat) (h1 : 0x7800 ≤ v) :
    writeLengthEncoded v =
      ((trimLeadZeros (toBytesBE 8 v)).length + 0xf7) :: trimLeadZeros (toBytesBE 8 v) := by
  unfold writeLengthEncoded
  rw [if_neg (by omega), if_neg (by omega)]

/-- C8: the first byte of the length encoding is never the list-escape byte
0xf8: values below 0x80 emit that value itself, two-byte encodings have a
first byte between 0x80 and 0xf7, and the multi-byte form (which always has
at least two significant bytes) has a prefix byte between 0xf9 and 0xff. -/
theorem c8_first_byte_not_f8 (v : Nat) (hv : v < 2 ^ 64) :
    writeLengthEncoded v ≠ [] ∧
    (∀ b, (writeLengthEncoded v).head? = some b →
      b ≠ 0xf8 ∧
      (v < 0x80 → b = v) ∧
      (0x80 ≤ v → v < 0x7800 → 0x80 ≤ b ∧ b ≤ 0xf7) ∧
      (0x7800 ≤ v → 0xf9 ≤ b ∧ b ≤ 0xff)) := by
  by_cases h1 : v < 0x80
  · rw [show writeLengthEncoded v = [v] by unfold writeLengthEncoded; rw [if_pos h1]]
    refine ⟨by simp, ?_⟩
    intro b hb
    simp at hb
    subst hb
    refine ⟨by omega, fun _ => rfl, by omega, by omega⟩
  · by_cases h2 : v < 0x7800
    · rw [writeLE_two_byte_shape v (by omega) h2]
      refine ⟨by simp, ?_⟩
      intro b hb
      simp at hb
      subst hb
      have hd : v / 256 < 0x78 := by omega
      refine ⟨by omega, by omega, fun _ _ => by omega, by omega⟩
    · rw [writeLE_multi_shape v (by omega)]
      obtain ⟨hs2, hs8, _⟩ := sig_facts v hv (by omega)
      refine ⟨by simp, ?_⟩
      intro b hb
      simp at hb
      subst hb
      refine ⟨by omega, by omega, by omega, fun _ => by omega⟩

/-- Witness for C8 at a concrete value in the multi-byte range. -/
theorem c8_first_byte_not_f8_witness :
    (0x123456 : Nat) < 2 ^ 64 ∧
    writeLengthEncoded 0x123456 ≠ [] ∧
    (∀ b, (writeLengthEncoded 0x123456).head? = some b →
      b ≠ 0xf8 ∧
      ((0x123456 : Nat) < 0x80 → b = 0x123456) ∧
      ((0x80 : Nat) ≤ 0x123456 → (0x123456 : Nat) < 0x7800 → 0x80 ≤ b ∧ b ≤ 0xf7) ∧
      ((0x7800 : Nat) ≤ 0x123456 → 0xf9 ≤ b ∧ b ≤ 0xff)) :=
  ⟨by norm_num, c8_first_byte_not_f8 0x123456 (by norm_num)⟩

theorem readLE_one_byte (v : Nat) (hv : v < 0x80) (rest : List Nat) :
    readLE 1 false (initReader (v :: rest)) =
      (v, { initReader (v :: rest) with offset := 1 }) := by
  rw [readLE, readLEstep]
  have hp : ¬(pastEOS (initReader (v :: rest)) 1 = true) := by
    simp [pastEOS, initReader]
  have hb : ¬((initReader (v :: rest)).badStream = true) := by
    simp [initReader]
  have hl : ¬((initReader (v :: rest)).data.length ≤ (initReader (v :: rest)).offset) := by
    simp [initReader]
  rw [if_neg hp, if_neg hb, if_neg hl]
  have hg : (initReader (v :: rest)).data.getD (initReader (v :: rest)).offset 0 = v := by
    simp [initReader]
  simp only [hg]
  rw [if_neg (by omega), if_pos (by omega)]
  simp [initReader]

theorem readLE_two_byte (b c : Nat) (hb1 : 0x80 ≤ b) (hb2 : b < 0xf8)
    (rest : List Nat) :
    readLE 1 false (initReader (b :: c :: rest)) =
      ((b &&& 0x7f) <<< 8 ||| c, { initReader (b :: c :: rest) with offset := 2 }) := by
  simp only [readLE, readLEstep, initReader, pastEOS]
  simp [show ¬(b = 248) by omega, show ¬(b < 128) by omega, hb2]

set_option maxRecDepth 4000 in
theorem readLE_multi (n : Nat) (sig : List Nat) (hlen : sig.length = n)
    (h2 : 2 ≤ n) (h8 : n ≤ 8) (rest : List Nat) :
    readLE 1 false (initReader ((n + 0xf7) :: (sig ++ rest))) =
      (fromBytesBE sig,
        { initReader ((n + 0xf7) :: (sig ++ rest)) with offset := 1 + n }) := by
  simp only [readLE, readLEstep, initReader, pastEOS, fetchPartialU, fetchBytes]
  simp [show ¬(n + 0xf7 = 248) by omega, show ¬(n + 0xf7 < 128) by omega,
        show ¬(n + 0xf7 < 248) by omega, hlen, show ¬(8 < n) by omega,
        show ¬(n = 0) by omega, List.take_left' hlen,
        show ¬(n + rest.length + 1 < 1 + n) by omega,
        show 1 + n ≤ n + rest.length + 1 by omega]

/-- C1: encoding any 64-bit value with Writer::WriteLengthEncoded and then
decoding with Reader::ReadLengthEncoded (as a length) returns exactly that
value and consumes exactly the emitted bytes, whatever bytes follow: one
byte below 0x80, two bytes below 0x7800, and otherwise a 0xf7 plus n prefix
byte followed by the n significant big-endian bytes (2 through 8 of them). -/
theorem c1_length_encoding_roundtrip (v : Nat) (hv : v < 2 ^ 64) (rest : List Nat) :
    readLE 1 false (initReader (writeLengthEncoded v ++ rest)) =
      (v, { initReader (writeLengthEncoded v ++ rest) with
            offset := (writeLengthEncoded v).length }) ∧
    (v < 0x80 → (writeLengthEncoded v).length = 1) ∧
    (0x80 ≤ v → v < 0x7800 → (writeLengthEncoded v).length = 2) ∧
    (0x7800 ≤ v →
      writeLengthEncoded v =
        ((trimLeadZeros (toBytesBE 8 v)).length + 0xf7) :: trimLeadZeros (toBytesBE 8 v) ∧
      2 ≤ (trimLeadZeros (toBytesBE 8 v)).length ∧
      (trimLeadZeros (toBytesBE 8 v)).length ≤ 8) := by
  by_cases h1 : v < 0x80
  · have he : writeLengthEncoded v = [v] := by
      unfold writeLengthEncoded; rw [if_pos h1]
    rw [he]
    refine ⟨?_, fun _ => rfl, fun h _ => by omega, fun h => by omega⟩
    simpa using readLE_one_byte v h1 rest
  · by_cases h2 : v < 0x7800
    · have he : writeLengthEncoded v = [v / 256 + 128, v % 256] :=
        writeLE_two_byte_shape v (by omega) h2
      rw [he]
      refine ⟨?_, fun h => by omega, fun _ _ => rfl, fun h => by omega⟩
      have hr := readLE_two_byte (v / 256 + 128) (v % 256) (by omega) (by omega) rest
      have hval : ((v / 256 + 128) &&& 0x7f) <<< 8 ||| v % 256 = v := by
        rw [and_0x7f (v / 256) (by omega), shl8_lor (v / 256) (v % 256) (by omega)]
        omega
      simp only [List.cons_append, List.nil_append] at hr ⊢
      rw [hr, hval]
      simp
    · obtain ⟨hs2, hs8, hsfrom⟩ := sig_facts v hv (by omega)
      have he : writeLengthEncoded v =
          ((trimLeadZeros (toBytesBE 8 v)).length + 0xf7) ::
            trimLeadZeros (toBytesBE 8 v) := writeLE_multi_shape v (by omega)
      rw [he]
      refine ⟨?_, fun h => by omega, fun h _ => by omega, fun _ => ⟨rfl, hs2, hs8⟩⟩
      have hr := readLE_multi (trimLeadZeros (toBytesBE 8 v)).length
        (trimLeadZeros (toBytesBE 8 v)) rfl hs2 hs8 rest
      simp only [List.cons_append] at hr ⊢
      rw [hr, hsfrom]
      simp only [List.length_cons]
      have hoff : 1 + (trimLeadZeros (toBytesBE 8 v)).length =
          (trimLeadZeros (toBytesBE 8 v)).length + 1 := by omega
      rw [hoff]

/-- Witness for C1 at a concrete value and suffix in each encoding class is
covered by the multi-byte value 0x123456 with a nonempty suffix. -/
theorem c1_length_encoding_roundtrip_witness :
    (0x123456 : Nat) < 2 ^ 64 ∧
    readLE 1 false (initReader (writeLengthEncoded 0x123456 ++ [7, 7])) =
      (0x123456, { initReader (writeLengthEncoded 0x123456 ++ [7, 7]) with
                   offset := (writeLengthEncoded 0x123456).length }) :=
  ⟨by norm_num, (c1_length_encoding_roundtrip 0x123456 (by norm_num) [7, 7]).1⟩

theorem and_hi_bit (b : Nat) (hb : b < 256) : b &&& 0x80 = 0x80 ↔ 0x80 ≤ b := by
  have h1 : b &&& 0x80 = (b.testBit 7).toNat * 0x80 := by
    have h := Nat.and_two_pow b 7
    norm_num at h
    exact h
  rw [h1, Nat.testBit_to_div_mod]
  rcases Nat.lt_or_ge b 128 with h2 | h2
  · have hd : b / 128 = 0 := by omega
    simp [hd]
    omega
  · have hd : b / 128 = 1 := by omega
    simp [hd]
    omega

theorem trimPayload_false (l : List Nat) : trimPayload false l = trimLeadZeros l := by
  cases l with
  | nil => rfl
  | cons b t => simp [trimPayload]

theorem fromBytes_head_lower (l : List Nat) (h : l ≠ []) :
    l.headI * 256 ^ (l.length - 1) ≤ fromBytesBE l := by
  cases l with
  | nil => exact absurd rfl h
  | cons b t =>
    rw [fromBytesBE_cons]
    simp

theorem fromBytes_head_upper (l : List Nat) (h : l ≠ []) (hb : ∀ b ∈ l, b < 256) :
    fromBytesBE l < (l.headI + 1) * 256 ^ (l.length - 1) := by
  cases l with
  | nil => exact absurd rfl h
  | cons b t =>
    rw [fromBytesBE_cons]
    have ht : fromBytesBE t < 256 ^ t.length := fromBytesBE_lt t fun x hx => hb x (by simp [hx])
    simp only [List.headI_cons, List.length_cons, Nat.add_sub_cancel]
    nlinarith

theorem trimLeadZeros_zero_val (l : List Nat) (h : l ≠ []) (hz : fromBytesBE l = 0) :
    trimLeadZeros l = [0] := by
  rcases trimLeadZeros_head_cases l h with h1 | h1
  · exact h1
  · exfalso
    have hne := trimLeadZeros_ne_nil l h
    have hlow := fromBytes_head_lower (trimLeadZeros l) hne
    rw [trimLeadZeros_from, hz] at hlow
    have hpos : 0 < 256 ^ ((trimLeadZeros l).length - 1) := Nat.pos_pow_of_pos _ (by omega)
    have : 1 ≤ (trimLeadZeros l).headI := by omega
    nlinarith

theorem toBytesBE_shape (w : Nat) (hw : 1 ≤ w) (N : Nat) :
    ∃ t, toBytesBE w N = (N / 256 ^ (w - 1) % 256) :: t ∧ t.length = w - 1 := by
  induction w generalizing N with
  | zero => omega
  | succ w ih =>
    rcases Nat.eq_or_lt_of_le hw with h1 | h1
    · have hw0 : w = 0 := by omega
      subst hw0
      refine ⟨[], ?_, by simp⟩
      simp [toBytesBE]
    · obtain ⟨t, ht, hlen⟩ := ih (by omega) (N / 256)
      refine ⟨t ++ [N % 256], ?_, by simp [hlen]; omega⟩
      rw [toBytesBE, ht]
      simp only [List.cons_append, List.nil_append]
      have h256 : 256 * 256 ^ (w - 1) = 256 ^ (w + 1 - 1) := by
        rw [mul_comm, ← Nat.pow_succ]
        congr 1
        omega
      rw [Nat.div_div_eq_div_mul, h256]

theorem trimSignedFF_mem (l : List Nat) (b : Nat) (h : b ∈ trimSignedFF l) :
    b ∈ l := by
  induction l with
  | nil => simp [trimSignedFF_nil] at h
  | cons x u ih =>
    cases u with
    | nil => simpa [trimSignedFF_singleton] using h
    | cons y r =>
      by_cases hx : x = 0xff
      · subst hx
        rw [trimSignedFF_ff_cons] at h
        split at h
        · have := ih h
          simp [this]
        · exact h
      · rwa [trimSignedFF_other_cons _ _ _ hx] at h

theorem trimPayload_nil (ext : Bool) : trimPayload ext [] = [] := rfl

theorem trimPayload_cons (ext : Bool) (a : Nat) (t : List Nat) :
    trimPayload ext (a :: t) =
      if ext ∧ a = 0xff then trimSignedFF (a :: t)
      else
        if ext ∧ (trimLeadZeros (a :: t)).length ≠ (a :: t).length ∧
            (trimLeadZeros (a :: t)).headI &&& 0x80 = 0x80 then
          0 :: trimLeadZeros (a :: t)
        else trimLeadZeros (a :: t) := rfl

theorem trimPayload_mem (ext : Bool) (l : List Nat) (b : Nat)
    (h : b ∈ trimPayload ext l) : b = 0 ∨ b ∈ l := by
  cases l with
  | nil => simp [trimPayload] at h
  | cons a t =>
    rw [trimPayload_cons] at h
    split at h
    · right
      exact trimSignedFF_mem _ _ h
    · split at h
      · rcases List.mem_cons.mp h with h1 | h1
        · left; exact h1
        · right; exact trimLeadZeros_mem _ _ h1
      · right; exact trimLeadZeros_mem _ _ h

theorem trimSignedFF_length_le (l : List Nat) : (trimSignedFF l).length ≤ l.length := by
  induction l with
  | nil => simp [trimSignedFF_nil]
  | cons x u ih =>
    cases u with
    | nil => simp [trimSignedFF_singleton]
    | cons y r =>
      by_cases hx : x = 0xff
      · subst hx
        rw [trimSignedFF_ff_cons]
        split
        · calc (trimSignedFF (y :: r)).length ≤ (y :: r).length := ih
          _ ≤ (0xff :: y :: r).length := by simp
        · simp
      · rw [trimSignedFF_other_cons _ _ _ hx]

theorem trimSignedFF_ne_nil (l : List Nat) (h : l ≠ []) : trimSignedFF l ≠ [] := by
  induction l with
  | nil => exact absurd rfl h
  | cons x u ih =>
    cases u with
    | nil => simp [trimSignedFF_singleton]
    | cons y r =>
      by_cases hx : x = 0xff
      · subst hx
        rw [trimSignedFF_ff_cons]
        split
        · exact ih (by simp)
        · simp
      · rw [trimSignedFF_other_cons _ _ _ hx]; simp

theorem trimPayload_length_le (ext : Bool) (l : List Nat) :
    (trimPayload ext l).length ≤ l.length := by
  cases l with
  | nil => simp [trimPayload]
  | cons a t =>
    rw [trimPayload_cons]
    split
    · exact trimSignedFF_length_le _
    · split
      · next hcond =>
        have h1 := trimLeadZeros_length_le (a :: t)
        have h2 : (trimLeadZeros (a :: t)).length ≠ (a :: t).length := hcond.2.1
        simp only [List.length_cons] at *
        omega
      · exact trimLeadZeros_length_le _

theorem trimPayload_ne_nil (ext : Bool) (l : List Nat) (h : l ≠ []) :
    trimPayload ext l ≠ [] := by
  cases l with
  | nil => exact absurd rfl h
  | cons a t =>
    rw [trimPayload_cons]
    split
    · exact trimSignedFF_ne_nil _ (by simp)
    · split
      · simp
      · exact trimLeadZeros_ne_nil _ (by simp)

theorem trimSignedFF_head_hi (l : List Nat) (hl : l.headI &&& 0x80 = 0x80) :
    (trimSignedFF l).headI &&& 0x80 = 0x80 := by
  induction l with
  | nil => exact hl
  | cons x u ih =>
    cases u with
    | nil => rw [trimSignedFF_singleton]; exact hl
    | cons y r =>
      by_cases hx : x = 0xff
      · subst hx
        rw [trimSignedFF_ff_cons]
        split
        · next hy => exact ih hy
        · exact hl
      · rw [trimSignedFF_other_cons _ _ _ hx]; exact hl

theorem trimSignedFF_stop (l : List Nat) :
    (trimSignedFF l).length ≤ 1 ∨
    ∃ a b t, trimSignedFF l = a :: b :: t ∧ ¬(a = 0xff ∧ b &&& 0x80 = 0x80) := by
  induction l with
  | nil => left; simp [trimSignedFF_nil]
  | cons x u ih =>
    cases u with
    | nil => left; simp [trimSignedFF_singleton]
    | cons y r =>
      by_cases hx : x = 0xff
      · subst hx
        rw [trimSignedFF_ff_cons]
        split
        · exact ih
        · next hy => right; exact ⟨0xff, y, r, rfl, fun hc => hy hc.2⟩
      · rw [trimSignedFF_other_cons _ _ _ hx]
        right
        exact ⟨x, y, r, rfl, fun hc => hx hc.1⟩

theorem signExtendBytes_ff_step (w b : Nat) (t : List Nat)
    (hb : b &&& 0x80 = 0x80) (hlen : t.length + 2 ≤ w) :
    signExtendBytes w (b :: t) = signExtendBytes w (0xff :: b :: t) := by
  unfold signExtendBytes
  simp only [List.headI_cons, List.length_cons]
  rw [if_pos ⟨by omega, hb⟩]
  have hff : (0xff : Nat) &&& 0x80 = 0x80 := by decide
  have hcons : fromBytesBE (0xff :: b :: t) =
      255 * 256 ^ (t.length + 1) + fromBytesBE (b :: t) := by
    rw [fromBytesBE_cons]
    simp
  have hps : (256 : Nat) ^ (t.length + 1 + 1) = 256 * 256 ^ (t.length + 1) :=
    by rw [pow_succ]; ring
  have hpw : (256 : Nat) ^ (t.length + 1 + 1) ≤ 256 ^ w :=
    Nat.pow_le_pow_right (by norm_num) (by omega)
  by_cases hl2 : t.length + 1 + 1 < w
  · rw [if_pos ⟨hl2, hff⟩, hcons]
    omega
  · rw [if_neg (by intro hc; exact absurd hc.1 hl2), hcons]
    have hw2 : t.length + 1 + 1 = w := by omega
    rw [← hw2]
    omega

theorem signExtendBytes_trimSignedFF (w : Nat) (l : List Nat)
    (hlen : l.length ≤ w) :
    signExtendBytes w (trimSignedFF l) = signExtendBytes w l := by
  induction l with
  | nil => rfl
  | cons x u ih =>
    cases u with
    | nil => rw [trimSignedFF_singleton]
    | cons y r =>
      by_cases hx : x = 0xff
      · subst hx
        rw [trimSignedFF_ff_cons]
        split
        · next hy =>
          rw [ih (by simp at hlen ⊢; omega)]
          exact signExtendBytes_ff_step w y r hy (by simp at hlen; omega)
        · rfl
      · rw [trimSignedFF_other_cons _ _ _ hx]

theorem decodeS_formula (w : Nat) (p : List Nat) (hlen : p.length ≤ w)
    (hbytes : ∀ x ∈ p, x < 256) :
    decodeS w p =
      if 0x80 ≤ p.headI ∧ p ≠ [] then
        (fromBytesBE p : Int) - (256 : Int) ^ p.length
      else (fromBytesBE p : Int) := by
  cases p with
  | nil =>
    rw [if_neg (by simp)]
    show toSigned w (signExtendBytes w []) = _
    have hE : signExtendBytes w [] = 0 := by
      unfold signExtendBytes
      rw [if_neg (by simp)]
      rfl
    rw [hE]
    unfold toSigned
    have hc : 2 * (0 : Nat) < 256 ^ w := by simp
    rw [if_pos hc]
    simp [fromBytesBE_nil]
  | cons b t =>
    have hlen2 : t.length + 1 ≤ w := by simpa using hlen
    have hblt : b < 256 := hbytes b (by simp)
    have hlow : b * 256 ^ t.length ≤ fromBytesBE (b :: t) := by
      have := fromBytes_head_lower (b :: t) (by simp)
      simpa using this
    have hupp : fromBytesBE (b :: t) < (b + 1) * 256 ^ t.length := by
      have := fromBytes_head_upper (b :: t) (by simp) hbytes
      simpa using this
    have hupp256 : fromBytesBE (b :: t) < 256 * 256 ^ t.length :=
      lt_of_lt_of_le hupp (Nat.mul_le_mul_right _ (by omega))
    have hps : (256 : Nat) ^ (t.length + 1) = 256 * 256 ^ t.length := by
      rw [pow_succ]; ring
    have hpw : (256 : Nat) ^ (t.length + 1) ≤ 256 ^ w :=
      Nat.pow_le_pow_right (by norm_num) hlen2
    have hcastR : ((256 ^ (t.length + 1) : Nat) : Int) = (256 : Int) ^ (t.length + 1) := by
      push_cast; ring
    have hcastQ : ((256 ^ w : Nat) : Int) = (256 : Int) ^ w := by
      push_cast; ring
    by_cases hb : 0x80 ≤ b
    · have hlow128 : 128 * 256 ^ t.length ≤ fromBytesBE (b :: t) :=
        le_trans (Nat.mul_le_mul_right _ hb) hlow
      have hhit : b &&& 0x80 = 0x80 := (and_hi_bit b hblt).mpr hb
      have hE : signExtendBytes w (b :: t) + 256 ^ (t.length + 1) =
          fromBytesBE (b :: t) + 256 ^ w := by
        unfold signExtendBytes
        simp only [List.headI_cons, List.length_cons]
        by_cases hl2 : t.length + 1 < w
        · rw [if_pos ⟨hl2, hhit⟩]
          omega
        · rw [if_neg (by intro hc; exact absurd hc.1 hl2)]
          have hw2 : t.length + 1 = w := by omega
          rw [← hw2]
      rw [if_pos ⟨by simpa using hb, by simp⟩]
      show toSigned w (signExtendBytes w (b :: t)) = _
      unfold toSigned
      rw [if_neg (by omega)]
      simp only [List.length_cons]
      omega
    · have hupp128 : fromBytesBE (b :: t) < 128 * 256 ^ t.length :=
        lt_of_lt_of_le hupp (Nat.mul_le_mul_right _ (by omega))
      have hhif : ¬(b &&& 0x80 = 0x80) := by
        rw [and_hi_bit b hblt]; omega
      have hE : signExtendBytes w (b :: t) = fromBytesBE (b :: t) := by
        unfold signExtendBytes
        simp only [List.headI_cons, List.length_cons]
        rw [if_neg (by intro hc; exact absurd hc.2 hhif)]
      rw [if_neg (by intro hc; simp at hc; omega)]
      show toSigned w (signExtendBytes w (b :: t)) = _
      unfold toSigned
      rw [hE, if_pos (by omega)]

theorem headI_mem (l : List Nat) (h : l ≠ []) : l.headI ∈ l := by
  cases l with
  | nil => exact absurd rfl h
  | cons b t => simp

theorem trimLeadZeros_of_head_ne (l : List Nat) (h : l.headI ≠ 0) :
    trimLeadZeros l = l := by
  cases l with
  | nil => rfl
  | cons a t =>
    cases t with
    | nil => exact trimLeadZeros_singleton a
    | cons b u => exact trimLeadZeros_pos_cons a b u (by simpa using h)

theorem tcNat_cast_nonneg (w : Nat) (v : Int) (h0 : 0 ≤ v)
    (h1 : v < (256 : Int) ^ w) : (tcNat w v : Int) = v := by
  unfold tcNat
  rw [Int.emod_eq_of_lt h0 h1, Int.toNat_of_nonneg h0]

theorem tcNat_cast_neg (w : Nat) (v : Int) (h0 : v < 0)
    (h1 : -(256 : Int) ^ w ≤ v) : (tcNat w v : Int) = v + (256 : Int) ^ w := by
  unfold tcNat
  have hb : (0 : Int) < (256 : Int) ^ w := by positivity
  have he : v % (256 : Int) ^ w = (v + (256 : Int) ^ w) % (256 : Int) ^ w := by
    have h := Int.add_mul_emod_self_left v ((256 : Int) ^ w) 1
    rw [mul_one] at h
    exact h.symm
  rw [he, Int.emod_eq_of_lt (by omega) (by omega), Int.toNat_of_nonneg (by omega)]

theorem tcNat_lt (w : Nat) (v : Int) : tcNat w v < 256 ^ w := by
  unfold tcNat
  have hb : (0 : Int) < (256 : Int) ^ w := by positivity
  have h1 := Int.emod_lt_of_pos v hb
  have h2 := Int.emod_nonneg v (by positivity : ((256 : Int) ^ w) ≠ 0)
  have hcast : ((256 ^ w : Nat) : Int) = (256 : Int) ^ w := by push_cast; ring
  omega

theorem decodeS_range (w : Nat) (p : List Nat) (hlen : p.length ≤ w)
    (hbytes : ∀ x ∈ p, x < 256) :
    -((256 : Int) ^ p.length) ≤ 2 * decodeS w p ∧
    2 * decodeS w p < (256 : Int) ^ p.length := by
  rw [decodeS_formula w p hlen hbytes]
  cases p with
  | nil =>
    rw [if_neg (by simp)]
    simp [fromBytesBE_nil]
  | cons b t =>
    have hblt : b < 256 := hbytes b (by simp)
    have hlow : b * 256 ^ t.length ≤ fromBytesBE (b :: t) := by
      simpa using fromBytes_head_lower (b :: t) (by simp)
    have hupp : fromBytesBE (b :: t) < (b + 1) * 256 ^ t.length := by
      simpa using fromBytes_head_upper (b :: t) (by simp) hbytes
    have hps : (256 : Nat) ^ (t.length + 1) = 256 * 256 ^ t.length := by
      rw [pow_succ]; ring
    have hpsZ : (256 : Int) ^ (t.length + 1) = 256 * 256 ^ t.length := by
      rw [pow_succ]; ring
    have hcastP : ((256 ^ t.length : Nat) : Int) = (256 : Int) ^ t.length := by
      push_cast; ring
    by_cases hb : 0x80 ≤ b
    · rw [if_pos ⟨by simpa using hb, by simp⟩]
      have hlow128 : 128 * 256 ^ t.length ≤ fromBytesBE (b :: t) :=
        le_trans (Nat.mul_le_mul_right _ hb) hlow
      have hupp256 : fromBytesBE (b :: t) < 256 * 256 ^ t.length :=
        lt_of_lt_of_le hupp (Nat.mul_le_mul_right _ (by omega))
      simp only [List.length_cons]
      omega
    · rw [if_neg (by intro hc; simp at hc; omega)]
      have hupp128 : fromBytesBE (b :: t) < 128 * 256 ^ t.length :=
        lt_of_lt_of_le hupp (Nat.mul_le_mul_right _ (by omega))
      simp only [List.length_cons]
      omega

theorem trimLeadZeros_length_eq (l : List Nat)
    (h : (trimLeadZeros l).length = l.length) : trimLeadZeros l = l := by
  induction l with
  | nil => rfl
  | cons a t ih =>
    cases t with
    | nil => exact trimLeadZeros_singleton a
    | cons b u =>
      cases a with
      | zero =>
        exfalso
        rw [trimLeadZeros_zero_cons] at h
        have := trimLeadZeros_length_le (b :: u)
        simp only [List.length_cons] at h this
        omega
      | succ a => exact trimLeadZeros_pos_cons _ _ _ (by omega)

theorem payload_bytes_lt (ext : Bool) (w N b : Nat)
    (h : b ∈ trimPayload ext (toBytesBE w N)) : b < 256 := by
  rcases trimPayload_mem _ _ _ h with h1 | h1
  · omega
  · exact toBytesBE_mem_lt w N b h1

theorem payloadU_props (w : Nat) (hw : 1 ≤ w) (v : Nat) (hv : v < 256 ^ w) :
    fromBytesBE (payloadU w v) = v ∧
    payloadU w v ≠ [] ∧
    (payloadU w v).length ≤ w ∧
    (∀ b ∈ payloadU w v, b < 256) ∧
    (v = 0 → payloadU w v = [0]) ∧
    (v ≠ 0 → 256 ^ ((payloadU w v).length - 1) ≤ v) := by
  have hblen : (toBytesBE w v).length = w := toBytesBE_length w v
  have hbne : toBytesBE w v ≠ [] := by
    intro h; rw [h] at hblen; simp at hblen; omega
  have hfrom : fromBytesBE (toBytesBE w v) = v := by
    rw [fromBytesBE_toBytesBE, Nat.mod_eq_of_lt hv]
  have hpu : payloadU w v = trimLeadZeros (toBytesBE w v) := by
    rw [payloadU, trimPayload_false]
  have hval : fromBytesBE (payloadU w v) = v := by
    rw [hpu, trimLeadZeros_from, hfrom]
  have hne : payloadU w v ≠ [] := by
    rw [hpu]; exact trimLeadZeros_ne_nil _ hbne
  refine ⟨hval, hne, ?_, ?_, ?_, ?_⟩
  · rw [hpu]
    exact le_trans (trimLeadZeros_length_le _) (by rw [hblen])
  · intro b hb
    exact payload_bytes_lt false w v b hb
  · intro hz
    rw [hpu]
    exact trimLeadZeros_zero_val _ hbne (by rw [hfrom, hz])
  · intro hnz
    have hcases := trimLeadZeros_head_cases (toBytesBE w v) hbne
    rcases hcases with hc | hc
    · exfalso
      rw [hpu, hc] at hval
      simp [fromBytesBE_cons, fromBytesBE_nil] at hval
      exact hnz hval.symm
    · have hlow := fromBytes_head_lower (payloadU w v) hne
      rw [hval] at hlow
      have hhead1 : 1 ≤ (payloadU w v).headI := by
        rw [hpu]; omega
    -- 256 ^ (len - 1) * 1 ≤ headI * 256 ^ (len - 1) ≤ v
      calc 256 ^ ((payloadU w v).length - 1)
          = 1 * 256 ^ ((payloadU w v).length - 1) := by ring
      _ ≤ (payloadU w v).headI * 256 ^ ((payloadU w v).length - 1) :=
          Nat.mul_le_mul_right _ hhead1
      _ ≤ v := hlow

theorem payloadU_min (w : Nat) (hw : 1 ≤ w) (v : Nat) (hv : v < 256 ^ w)
    (hne : v ≠ 0) (p : List Nat) (hbytes : ∀ b ∈ p, b < 256)
    (hdec : fromBytesBE p = v) : (payloadU w v).length ≤ p.length := by
  obtain ⟨_, hpne, _, _, _, hbound⟩ := payloadU_props w hw v hv
  have hb := hbound hne
  have hup : v < 256 ^ p.length := hdec ▸ fromBytesBE_lt p hbytes
  by_contra hcon
  push_neg at hcon
  have hmono : 256 ^ p.length ≤ 256 ^ ((payloadU w v).length - 1) :=
    Nat.pow_le_pow_right (by norm_num) (by omega)
  omega

theorem payloadS_props (w : Nat) (hw : 1 ≤ w) (v : Int)
    (h1 : -((256 : Int) ^ w) ≤ 2 * v) (h2 : 2 * v < (256 : Int) ^ w) :
    decodeS w (payloadS w v) = v ∧
    payloadS w v ≠ [] ∧
    (payloadS w v).length ≤ w ∧
    (∀ b ∈ payloadS w v, b < 256) ∧
    (v = 0 → payloadS w v = [0]) ∧
    (0 < v → (256 : Int) ^ ((payloadS w v).length - 1) ≤ 2 * v) ∧
    (v < 0 → 2 * v < -((256 : Int) ^ ((payloadS w v).length - 1))) := by
  have hcastQ : ((256 ^ w : Nat) : Int) = (256 : Int) ^ w := by push_cast; ring
  have hNlt : tcNat w v < 256 ^ w := tcNat_lt w v
  have hblen : (toBytesBE w (tcNat w v)).length = w := toBytesBE_length w _
  have hbne : toBytesBE w (tcNat w v) ≠ [] := by
    intro h; rw [h] at hblen; simp at hblen; omega
  have hbbytes : ∀ x ∈ toBytesBE w (tcNat w v), x < 256 :=
    fun x hx => toBytesBE_mem_lt w _ x hx
  have hfrom : fromBytesBE (toBytesBE w (tcNat w v)) = tcNat w v := by
    rw [fromBytesBE_toBytesBE, Nat.mod_eq_of_lt hNlt]
  have hppos : (0 : Nat) < 256 ^ (w - 1) := Nat.pos_pow_of_pos _ (by norm_num)
  have hps : (256 : Nat) ^ w = 256 ^ (w - 1) * 256 := by
    rw [← pow_succ]
    congr 1
    omega
  have hQpos : (0 : Int) < (256 : Int) ^ w := by positivity
  have hlenle : (payloadS w v).length ≤ w := by
    rw [payloadS]
    exact le_trans (trimPayload_length_le _ _) (by rw [hblen])
  have hpbytes : ∀ b ∈ payloadS w v, b < 256 := by
    intro b hb
    exact payload_bytes_lt _ w _ b hb
  have hpne : payloadS w v ≠ [] := by
    rw [payloadS]
    exact trimPayload_ne_nil _ _ hbne
  rcases lt_trichotomy v 0 with hv | hv | hv
  · -- negative values
    have hNv : (tcNat w v : Int) = v + (256 : Int) ^ w :=
      tcNat_cast_neg w v hv (by omega)
    have hN2 : 256 ^ w ≤ 2 * tcNat w v := by omega
    have hh0hi : 128 ≤ tcNat w v / 256 ^ (w - 1) := by
      rw [Nat.le_div_iff_mul_le hppos]
      omega
    have hh0lt : tcNat w v / 256 ^ (w - 1) < 256 := by
      rw [Nat.div_lt_iff_lt_mul hppos]
      omega
    obtain ⟨tail, hshape, htlen⟩ := toBytesBE_shape w hw (tcNat w v)
    rw [Nat.mod_eq_of_lt hh0lt] at hshape
    have hvne1 : 2 * v < -(1 : Int) := by omega
    by_cases hw1 : w = 1
    · -- single byte: int8_t path, handleExtendedSign is false
      subst hw1
      have htail : tail = [] := by
        cases tail with
        | nil => rfl
        | cons x u => simp at htlen
      subst htail
      have hext : (decide (1 < 1)) = false := by decide
      have hP1 : (256 : Nat) ^ (1 - 1) = 1 := by norm_num
      rw [hP1, Nat.div_one] at hshape
      have hpay : payloadS 1 v = [tcNat 1 v] := by
        rw [payloadS, hext, hshape, trimPayload_false, trimLeadZeros_singleton]
      rw [hpay]
      have hform := decodeS_formula 1 [tcNat 1 v] (by simp)
        (by intro x hx; simp at hx; omega)
      rw [if_pos ⟨by simp; omega, by simp⟩] at hform
      refine ⟨?_, by simp, by simp, by intro b hb; simp at hb; omega, ?_, ?_, ?_⟩
      · rw [hform]
        have : fromBytesBE [tcNat 1 v] = tcNat 1 v := by
          rw [fromBytesBE_cons, fromBytesBE_nil]
          simp
        rw [this]
        simp only [List.length_cons, List.length_nil]
        omega
      · intro h; omega
      · intro h; omega
      · intro h
        simp only [List.length_cons, List.length_nil]
        norm_num
        omega
    · -- at least two bytes: handleExtendedSign is true
      have hw2 : 2 ≤ w := by omega
      have hext : (decide (1 < w)) = true := by
        simp only [decide_eq_true_eq]
        omega
      have hbytesform : payloadS w v =
          trimPayload true (toBytesBE w (tcNat w v)) := by
        rw [payloadS, hext]
      by_cases hff : tcNat w v / 256 ^ (w - 1) = 255
      · -- leading 0xff run is trimmed
        have hpay : payloadS w v = trimSignedFF (toBytesBE w (tcNat w v)) := by
          rw [hbytesform, hshape, trimPayload_cons, if_pos ⟨rfl, hff⟩, ← hshape]
        have hrne : trimSignedFF (toBytesBE w (tcNat w v)) ≠ [] :=
          trimSignedFF_ne_nil _ hbne
        have hrbytes : ∀ x ∈ trimSignedFF (toBytesBE w (tcNat w v)), x < 256 :=
          fun x hx => hbbytes x (trimSignedFF_mem _ x hx)
        have hrlen : (trimSignedFF (toBytesBE w (tcNat w v))).length ≤ w :=
          le_trans (trimSignedFF_length_le _) (by rw [hblen])
        -- the sign-extended buffer value is preserved by the trim
        have hEpres : signExtendBytes w (trimSignedFF (toBytesBE w (tcNat w v))) =
            signExtendBytes w (toBytesBE w (tcNat w v)) :=
          signExtendBytes_trimSignedFF w _ (by rw [hblen])
        have hdec : decodeS w (payloadS w v) = v := by
          rw [hpay]
          show toSigned w _ = v
          rw [hEpres]
          show decodeS w (toBytesBE w (tcNat w v)) = v
          rw [decodeS_formula w _ (by rw [hblen]) hbbytes]
          rw [if_pos ⟨by rw [hshape]; simp; omega, hbne⟩]
          rw [hfrom, hblen]
          omega
        refine ⟨hdec, hpay ▸ hrne, hpay ▸ hrlen, hpbytes, by intro h; omega,
          by intro h; omega, ?_⟩
        intro _
        -- bound on the length of the trimmed form
        rcases trimSignedFF_stop (toBytesBE w (tcNat w v)) with hstop | hstop
        · have hL1 : (payloadS w v).length = 1 := by
            rw [hpay]
            have := List.length_pos.mpr hrne
            omega
          rw [hL1]
          norm_num
          omega
        · obtain ⟨a, b2, t2, hr, hnot⟩ := hstop
          -- the head of the trimmed list still has its high bit set
          have hhead_hi : (trimSignedFF (toBytesBE w (tcNat w v))).headI &&& 0x80 = 0x80 := by
            apply trimSignedFF_head_hi
            rw [hshape]
            simp only [List.headI_cons]
            rw [hff]
            decide
          have halt : a < 256 := hrbytes a (by rw [hr]; simp)
          have hahi : 128 ≤ a := by
            rw [hr] at hhead_hi
            simp only [List.headI_cons] at hhead_hi
            exact (and_hi_bit a halt).mp hhead_hi
          -- value of the trimmed list from the decode formula
          have hrdec : decodeS w (trimSignedFF (toBytesBE w (tcNat w v))) = v :=
            hpay ▸ hdec
          have hrform := decodeS_formula w (trimSignedFF (toBytesBE w (tcNat w v)))
            hrlen hrbytes
          rw [if_pos ⟨by rw [hr]; simp; omega, hrne⟩, hrdec] at hrform
          -- hrform : v = fromBytes r - 256 ^ |r|
          have hL : (payloadS w v).length = t2.length + 2 := by
            rw [hpay, hr]; simp
          rw [hL]
          have hLL : t2.length + 2 - 1 = t2.length + 1 := by omega
          rw [hLL]
          have hcastL : ((256 ^ (t2.length + 2) : Nat) : Int) =
              (256 : Int) ^ (t2.length + 2) := by push_cast; ring
          have hZps : (256 : Int) ^ (t2.length + 2) =
              256 * (256 : Int) ^ (t2.length + 1) := by
            rw [pow_succ]; ring
          have hZps2 : (256 : Int) ^ (t2.length + 1) =
              256 * (256 : Int) ^ t2.length := by
            rw [pow_succ]; ring
          have hZpos : (0 : Int) < (256 : Int) ^ t2.length := by positivity
          by_cases ha255 : a = 255
          · -- stopped because the next byte has a clear high bit
            have hb2low : ¬(b2 &&& 0x80 = 0x80) := fun hc => hnot ⟨ha255, hc⟩
            have hb2lt : b2 < 256 := hrbytes b2 (by rw [hr]; simp)
            have hb2small : b2 < 128 := by
              by_contra hcb
              exact hb2low ((and_hi_bit b2 hb2lt).mpr (by omega))
            have hsplit : fromBytesBE (a :: b2 :: t2) =
                a * 256 ^ (t2.length + 1) + fromBytesBE (b2 :: t2) := by
              rw [fromBytesBE_cons]
              simp
            have hF2 : fromBytesBE (b2 :: t2) < 128 * 256 ^ t2.length := by
              have hu := fromBytes_head_upper (b2 :: t2) (by simp)
                (fun x hx => hrbytes x (by rw [hr]; simp [hx]))
              simp only [List.headI_cons, List.length_cons, Nat.add_sub_cancel] at hu
              exact lt_of_lt_of_le hu (Nat.mul_le_mul_right _ (by omega))
            rw [hr] at hrform
            rw [hsplit, ha255] at hrform
            simp only [List.length_cons] at hrform
            -- v = 255 * 256^(t2.length+1) + F2 - 256^(t2.length+2)
            have hcast255 : ((255 * 256 ^ (t2.length + 1) + fromBytesBE (b2 :: t2) : Nat) : Int) =
                255 * (256 : Int) ^ (t2.length + 1) + (fromBytesBE (b2 :: t2) : Int) := by
              push_cast; ring
            have hcastF2 : ((fromBytesBE (b2 :: t2) : Nat) : Int) <
                128 * (256 : Int) ^ t2.length := by
              exact_mod_cast hF2
            rw [hcast255] at hrform
            omega
          · -- stopped because the head is not 0xff
            have ha254 : a ≤ 254 := by omega
            have hFr : fromBytesBE (a :: b2 :: t2) < 255 * 256 ^ (t2.length + 1) := by
              have hu := fromBytes_head_upper (a :: b2 :: t2) (by simp)
                (fun x hx => hrbytes x (by rw [hr]; exact hx))
              simp only [List.headI_cons, List.length_cons, Nat.add_sub_cancel] at hu
              exact lt_of_lt_of_le hu (Nat.mul_le_mul_right _ (by omega))
            rw [hr] at hrform
            simp only [List.length_cons] at hrform
            have hcastFr : ((fromBytesBE (a :: b2 :: t2) : Nat) : Int) <
                255 * (256 : Int) ^ (t2.length + 1) := by
              exact_mod_cast hFr
            omega
      · -- head byte between 0x80 and 0xfe: nothing is trimmed
        have hh0ne : tcNat w v / 256 ^ (w - 1) ≠ 0 := by omega
        have hz : trimLeadZeros (toBytesBE w (tcNat w v)) = toBytesBE w (tcNat w v) := by
          apply trimLeadZeros_of_head_ne
          rw [hshape]
          simpa using hh0ne
        have hpay : payloadS w v = toBytesBE w (tcNat w v) := by
          rw [hbytesform, hshape, trimPayload_cons]
          rw [if_neg (by intro hc; exact hff hc.2)]
          rw [← hshape, hz]
          rw [if_neg (by intro hc; exact hc.2.1 rfl)]
        have hdec : decodeS w (payloadS w v) = v := by
          rw [hpay, decodeS_formula w _ (by rw [hblen]) hbbytes]
          rw [if_pos ⟨by rw [hshape]; simp; omega, hbne⟩]
          rw [hfrom, hblen]
          omega
        refine ⟨hdec, hpne, hlenle, hpbytes, by intro h; omega, by intro h; omega, ?_⟩
        intro _
        have hL : (payloadS w v).length = w := by rw [hpay, hblen]
        rw [hL]
        have hupp : tcNat w v < 255 * 256 ^ (w - 1) := by
          have hu := fromBytes_head_upper (toBytesBE w (tcNat w v)) hbne hbbytes
          rw [hfrom, hblen, hshape] at hu
          simp only [List.headI_cons] at hu
          exact lt_of_lt_of_le hu (Nat.mul_le_mul_right _ (by omega))
        have hcastP : ((256 ^ (w - 1) : Nat) : Int) = (256 : Int) ^ (w - 1) := by
          push_cast; ring
        have hZps : (256 : Int) ^ w = 256 * (256 : Int) ^ (w - 1) := by
          rw [← pow_succ']
          congr 1
          omega
        omega
  · -- v = 0
    subst hv
    have hN0 : tcNat w 0 = 0 := by
      have := tcNat_cast_nonneg w 0 le_rfl hQpos
      omega
    have hz : trimLeadZeros (toBytesBE w (tcNat w 0)) = [0] := by
      apply trimLeadZeros_zero_val _ hbne
      rw [hfrom, hN0]
    obtain ⟨tail, hshape, htlen⟩ := toBytesBE_shape w hw (tcNat w 0)
    have hh00 : tcNat w 0 / 256 ^ (w - 1) % 256 = 0 := by
      rw [hN0]
      simp
    rw [hh00] at hshape
    have hpay : payloadS w 0 = [0] := by
      rw [payloadS, hshape, trimPayload_cons]
      rw [if_neg (by intro hc; simp at hc)]
      rw [← hshape, hz]
      rw [if_neg (by intro hc; simp at hc)]
    rw [hpay]
    have hform := decodeS_formula w [0] (by simp; omega) (by intro x hx; simp at hx; omega)
    rw [if_neg (by simp)] at hform
    refine ⟨?_, by simp, by simp; omega, by intro b hb; simp at hb; omega,
      fun _ => rfl, by intro h; omega, by intro h; omega⟩
    rw [hform, fromBytesBE_cons, fromBytesBE_nil]
    simp
  · -- positive values
    have hNv : (tcNat w v : Int) = v := tcNat_cast_nonneg w v (by omega) (by omega)
    have hN2 : 2 * tcNat w v < 256 ^ w := by omega
    have hNne : tcNat w v ≠ 0 := by omega
    have hh0low : tcNat w v / 256 ^ (w - 1) < 128 := by
      rw [Nat.div_lt_iff_lt_mul hppos]
      omega
    obtain ⟨tail, hshape, htlen⟩ := toBytesBE_shape w hw (tcNat w v)
    rw [Nat.mod_eq_of_lt (by omega)] at hshape
    -- common facts about the zero-trimmed list
    have hzfrom : fromBytesBE (trimLeadZeros (toBytesBE w (tcNat w v))) = tcNat w v := by
      rw [trimLeadZeros_from, hfrom]
    have hzne : trimLeadZeros (toBytesBE w (tcNat w v)) ≠ [] :=
      trimLeadZeros_ne_nil _ hbne
    have hzlen : (trimLeadZeros (toBytesBE w (tcNat w v))).length ≤ w :=
      le_trans (trimLeadZeros_length_le _) (by rw [hblen])
    have hzbytes : ∀ x ∈ trimLeadZeros (toBytesBE w (tcNat w v)), x < 256 :=
      fun x hx => hbbytes x (trimLeadZeros_mem _ x hx)
    have hzhead : (trimLeadZeros (toBytesBE w (tcNat w v))).headI ≠ 0 := by
      rcases trimLeadZeros_head_cases _ hbne with hc | hc
      · exfalso
        rw [hc, fromBytesBE_cons, fromBytesBE_nil] at hzfrom
        simp at hzfrom
        omega
      · exact hc
    have hzlow : 256 ^ ((trimLeadZeros (toBytesBE w (tcNat w v))).length - 1) ≤
        tcNat w v := by
      have hl := fromBytes_head_lower _ hzne
      rw [hzfrom] at hl
      calc 256 ^ ((trimLeadZeros (toBytesBE w (tcNat w v))).length - 1)
          = 1 * 256 ^ ((trimLeadZeros (toBytesBE w (tcNat w v))).length - 1) := by ring
      _ ≤ _ := le_trans (Nat.mul_le_mul_right _ (by omega)) hl
    have hcond1 : ¬((decide (1 < w)) = true ∧
        tcNat w v / 256 ^ (w - 1) = 255) := by
      intro hc
      omega
    by_cases hC : (decide (1 < w)) = true ∧
        (trimLeadZeros (toBytesBE w (tcNat w v))).length ≠
          (toBytesBE w (tcNat w v)).length ∧
        (trimLeadZeros (toBytesBE w (tcNat w v))).headI &&& 0x80 = 0x80
    · -- a zero byte is put back in front of a high first byte
      have hpay : payloadS w v =
          0 :: trimLeadZeros (toBytesBE w (tcNat w v)) := by
        rw [payloadS, hshape, trimPayload_cons]
        rw [if_neg hcond1]
        rw [← hshape, if_pos hC]
      have hzhi : 128 ≤ (trimLeadZeros (toBytesBE w (tcNat w v))).headI := by
        have hhlt : (trimLeadZeros (toBytesBE w (tcNat w v))).headI < 256 :=
          hzbytes _ (headI_mem _ hzne)
        exact (and_hi_bit _ hhlt).mp hC.2.2
      have hzlt : (trimLeadZeros (toBytesBE w (tcNat w v))).length < w := by
        have := hC.2.1
        rw [hblen] at this
        omega
      have hpaylen : (payloadS w v).length =
          (trimLeadZeros (toBytesBE w (tcNat w v))).length + 1 := by
        rw [hpay]; simp
      have hform := decodeS_formula w (payloadS w v) hlenle hpbytes
      rw [if_neg (by rw [hpay]; intro hc; simp at hc)] at hform
      have hval : fromBytesBE (payloadS w v) = tcNat w v := by
        rw [hpay, fromBytesBE_cons, hzfrom]
        simp
      refine ⟨by rw [hform, hval, hNv], hpne, hlenle, hpbytes,
        by intro h; omega, ?_, by intro h; omega⟩
      intro _
      rw [hpaylen]
      have hLL : (trimLeadZeros (toBytesBE w (tcNat w v))).length + 1 - 1 =
          (trimLeadZeros (toBytesBE w (tcNat w v))).length := by omega
      rw [hLL]
      -- 2 * N is at least 256 ^ |z| because the head is at least 128
      have hl := fromBytes_head_lower _ hzne
      rw [hzfrom] at hl
      have hscale : 128 * 256 ^ ((trimLeadZeros (toBytesBE w (tcNat w v))).length - 1) ≤
          tcNat w v :=
        le_trans (Nat.mul_le_mul_right _ hzhi) hl
      have hzp : (256 : Nat) ^ (trimLeadZeros (toBytesBE w (tcNat w v))).length =
          256 ^ ((trimLeadZeros (toBytesBE w (tcNat w v))).length - 1) * 256 := by
        rw [← pow_succ]
        congr 1
        have := List.length_pos.mpr hzne
        omega
      have hcastZ : ((256 ^ (trimLeadZeros (toBytesBE w (tcNat w v))).length : Nat) : Int) =
          (256 : Int) ^ (trimLeadZeros (toBytesBE w (tcNat w v))).length := by
        push_cast; ring
      have hcastZ1 : ((256 ^ ((trimLeadZeros (toBytesBE w (tcNat w v))).length - 1) : Nat) : Int) =
          (256 : Int) ^ ((trimLeadZeros (toBytesBE w (tcNat w v))).length - 1) := by
        push_cast; ring
      omega
    · -- no prepended byte
      have hpay : payloadS w v = trimLeadZeros (toBytesBE w (tcNat w v)) := by
        rw [payloadS, hshape, trimPayload_cons]
        rw [if_neg hcond1]
        rw [← hshape, if_neg hC]
      have hzlowhead : (trimLeadZeros (toBytesBE w (tcNat w v))).headI < 128 := by
        by_contra hcb
        push_neg at hcb
        have hhlt : (trimLeadZeros (toBytesBE w (tcNat w v))).headI < 256 :=
          hzbytes _ (headI_mem _ hzne)
        have hhi : (trimLeadZeros (toBytesBE w (tcNat w v))).headI &&& 0x80 = 0x80 :=
          (and_hi_bit _ hhlt).mpr hcb
        by_cases hext : (decide (1 < w)) = true
        · -- trimming must then have dropped nothing, making the head small
          have hlz : (trimLeadZeros (toBytesBE w (tcNat w v))).length =
              (toBytesBE w (tcNat w v)).length := by
            by_contra hll
            exact hC ⟨hext, hll, hhi⟩
          have hid := trimLeadZeros_length_eq _ hlz
          rw [hid, hshape] at hcb
          simp at hcb
          omega
        · -- one byte wide: the whole value is below 128
          have hwone : w = 1 := by
            simp only [decide_eq_true_eq] at hext
            omega
          subst hwone
          have htail : tail = [] := by
            cases tail with
            | nil => rfl
            | cons x u => simp at htlen
          subst htail
          rw [hshape, trimLeadZeros_singleton] at hcb
          simp at hcb
          omega
      have hform := decodeS_formula w (payloadS w v) hlenle hpbytes
      rw [if_neg (by rw [hpay]; intro hc; omega)] at hform
      refine ⟨by rw [hform, hpay, hzfrom, hNv], hpne, hlenle, hpbytes,
        by intro h; omega, ?_, by intro h; omega⟩
      intro _
      rw [hpay]
      have hcastZ1 : ((256 ^ ((trimLeadZeros (toBytesBE w (tcNat w v))).length - 1) : Nat) : Int) =
          (256 : Int) ^ ((trimLeadZeros (toBytesBE w (tcNat w v))).length - 1) := by
        push_cast; ring
      omega

theorem payloadS_min (w : Nat) (hw : 1 ≤ w) (v : Int)
    (h1 : -((256 : Int) ^ w) ≤ 2 * v) (h2 : 2 * v < (256 : Int) ^ w)
    (hne : v ≠ 0) (p : List Nat) (hplen : p.length ≤ w)
    (hbytes : ∀ b ∈ p, b < 256) (hdec : decodeS w p = v) :
    (payloadS w v).length ≤ p.length := by
  obtain ⟨_, hpne, _, _, _, hposb, hnegb⟩ := payloadS_props w hw v h1 h2
  obtain ⟨hr1, hr2⟩ := decodeS_range w p hplen hbytes
  rw [hdec] at hr1 hr2
  by_contra hcon
  push_neg at hcon
  have hmono : (256 : Int) ^ p.length ≤ (256 : Int) ^ ((payloadS w v).length - 1) := by
    apply pow_le_pow_right₀ (by norm_num)
    omega
  rcases lt_trichotomy v 0 with hv | hv | hv
  · have := hnegb hv
    omega
  · exact hne hv
  · have := hposb hv
    omega

/-- C5 counterexample: for the value 0 the emitted payload is the single
byte 0x00, but the empty payload also decodes to 0 (a zero-length payload
zero-extends to 0), so the emitted payload is not the minimum-length
big-endian encoding as the claim states. -/
theorem c5_counterexample :
    payloadU 2 0 = [0x00] ∧ fromBytesBE ([] : List Nat) = 0 ∧
    fromBytesBE (payloadU 2 0) = 0 ∧
    ¬((payloadU 2 0).length ≤ ([] : List Nat).length) := by decide

/-- C5 amended: for every integer field width (1, 2, 4 or 8 bytes) and every
value in range, the payload emitted by the Writer decodes back to the value
(zero-extending for unsigned, sign-extending for signed) and is the
minimum-length payload among the nonempty byte strings that decode to that
value; the value 0 emits the single byte 0x00 rather than the empty payload. -/
theorem c5_minimal_payload (w : Nat) (hw : w = 1 ∨ w = 2 ∨ w = 4 ∨ w = 8) :
    (∀ v : Nat, v < 256 ^ w →
      fromBytesBE (payloadU w v) = v ∧
      payloadU w v ≠ [] ∧
      (v = 0 → payloadU w v = [0]) ∧
      (v ≠ 0 → ∀ p : List Nat, (∀ b ∈ p, b < 256) → fromBytesBE p = v →
        (payloadU w v).length ≤ p.length)) ∧
    (∀ v : Int, -((256 : Int) ^ w) ≤ 2 * v → 2 * v < (256 : Int) ^ w →
      decodeS w (payloadS w v) = v ∧
      payloadS w v ≠ [] ∧
      (v = 0 → payloadS w v = [0]) ∧
      (v ≠ 0 → ∀ p : List Nat, p.length ≤ w → (∀ b ∈ p, b < 256) →
        decodeS w p = v → (payloadS w v).length ≤ p.length)) := by
  have hw1 : 1 ≤ w := by rcases hw with h | h | h | h <;> omega
  constructor
  · intro v hv
    obtain ⟨ha, hb, _, _, hz, _⟩ := payloadU_props w hw1 v hv
    exact ⟨ha, hb, hz, fun hne p hb2 hd => payloadU_min w hw1 v hv hne p hb2 hd⟩
  · intro v hv1 hv2
    obtain ⟨ha, hb, _, _, hz, _, _⟩ := payloadS_props w hw1 v hv1 hv2
    exact ⟨ha, hb, hz, fun hne p hl hb2 hd => payloadS_min w hw1 v hv1 hv2 hne p hl hb2 hd⟩

/-- Witness for C5 at width 2 with an unsigned and a signed value. -/
theorem c5_minimal_payload_witness :
    ((2 : Nat) = 1 ∨ (2 : Nat) = 2 ∨ (2 : Nat) = 4 ∨ (2 : Nat) = 8) ∧
    ((300 : Nat) < 256 ^ 2) ∧
    fromBytesBE (payloadU 2 300) = 300 ∧
    (-((256 : Int) ^ 2) ≤ 2 * (-300 : Int)) ∧ (2 * (-300 : Int) < (256 : Int) ^ 2) ∧
    decodeS 2 (payloadS 2 (-300)) = -300 :=
  ⟨by decide, by decide,
   ((c5_minimal_payload 2 (by decide)).1 300 (by decide)).1,
   by decide, by decide,
   ((c5_minimal_payload 2 (by decide)).2 (-300) (by decide) (by decide)).1⟩
